import Mathlib

/-!
LaboratoryWork4: dice notation parser and roll engine.

A shallow embedding of `LaboratoryWork4.cpp`.

* `std::string` is a `List Char`; `std::string::npos` is `none` of an `Option Nat`.
* `int` is an `Int`; the library conversion that checks the 32-bit range
  (`std::stoi`) does so explicitly. The additions of `roll_dice` are taken
  through `int_add`, which reduces to the 32-bit two's complement range, the
  result compilers give where C++ leaves signed overflow undefined;
  `roll_dice_exact` is the same code in exact integer arithmetic, and
  `roll_dice_eq_wrap` relates the two.
* A reference parameter that a function writes (`output_group`,
  `output_groups`) is passed in and returned next to the `bool` result.
* The random generator is an explicit state `σ` with a drawing function
  `draw : σ → Int → Int × σ`; `draw s sides` stands for one call of a
  `uniform_int_distribution<int>(1, sides)` on the generator in state `s`,
  and gives the value drawn and the next state.
* A loop whose number of iterations is not that of a list carries a `fuel`
  argument, with a theorem that the fuel given covers every iteration.
-/

namespace LaboratoryWork4

/-! ## Strings -/

/-- The `std::string` of the program: a sequence of characters. -/
abbrev Str := List Char

/-- The `s.substr(pos)` of the library: the characters from index `pos` to the end. -/
def substr_from (s : Str) (pos : Nat) : Str := s.drop pos

/-- The `s.substr(pos, len)` of the library: at most `len` characters from index `pos`. -/
def substr (s : Str) (pos len : Nat) : Str := (s.drop pos).take len

/-- The `s.find_first_of(chars)` of the library: index of the first character of `s` that is in
`chars`, `none` for `npos`. -/
def find_first_of : Str → List Char → Option Nat
  | [], _ => none
  | c :: cs, chars =>
    if c ∈ chars then some 0
    else match find_first_of cs chars with
      | some i => some (i + 1)
      | none => none

/-- The `s.find_first_not_of(chars)` of the library: index of the first character of `s` that is
not in `chars`, `none` for `npos`. -/
def find_first_not_of : Str → List Char → Option Nat
  | [], _ => none
  | c :: cs, chars =>
    if c ∈ chars then
      match find_first_not_of cs chars with
      | some i => some (i + 1)
      | none => none
    else some 0

/-- The `s.find_last_not_of(chars)` of the library: index of the last character of `s` that is
not in `chars`, `none` for `npos`. -/
def find_last_not_of : Str → List Char → Option Nat
  | [], _ => none
  | c :: cs, chars =>
    match find_last_not_of cs chars with
    | some i => some (i + 1)
    | none => if c ∈ chars then none else some 0

/-- The `s.find(ch, pos)` of the library: index of the first occurrence of `ch` at or after
index `pos`, `none` for `npos`. -/
def find_from (s : Str) (ch : Char) (pos : Nat) : Option Nat :=
  match find_first_of (s.drop pos) [ch] with
  | some i => some (pos + i)
  | none => none

/-! ## Integers -/

/-- The least value of `int`. -/
def INT_MIN : Int := -2147483648

/-- The greatest value of `int`. -/
def INT_MAX : Int := 2147483647

/-- Reduction of an integer to the 32-bit two's complement range. -/
def int_wrap (x : Int) : Int := (x + 2147483648) % 4294967296 - 2147483648

/-- Addition of two `int` values (`total += v`), reduced to 32 bits. -/
def int_add (a b : Int) : Int := int_wrap (a + b)

/-- The `isspace` of the "C" locale, which `strtol` uses to skip leading
white space: space, `\t`, `\n`, `\v`, `\f`, `\r`. -/
def isspace (c : Char) : Bool :=
  c = ' ' || c = '\t' || c = '\n' || c = Char.ofNat 11 || c = Char.ofNat 12 || c = '\r'

/-- A decimal digit character. -/
def is_digit (c : Char) : Bool := 48 ≤ c.toNat && c.toNat ≤ 57

/-- Value of a run of decimal digits, most significant first, continuing
from the value `acc` read so far. -/
def digits_value : List Char → Nat → Nat
  | [], acc => acc
  | c :: cs, acc => digits_value cs (acc * 10 + (c.toNat - 48))

/-- The optional sign `strtol` reads in front of the digits: whether it is
`-`, and the text after it. -/
def strip_sign (s : Str) : Bool × Str :=
  match s with
  | [] => (false, [])
  | c :: r =>
    if c = '-' then (true, r)
    else if c = '+' then (false, r)
    else (false, c :: r)

/-- The `std::stoi(str)` of the library (base 10, no position output), `none`
when it throws.

It skips leading white space, reads an optional sign and then the longest
run of decimal digits; what follows the digits is ignored. It throws
`std::invalid_argument` when there is no digit, and `std::out_of_range` when
the value is outside the range of `int`. -/
def stoi (str : Str) : Option Int :=
  let signed := strip_sign (str.dropWhile isspace)
  let digits := signed.2.takeWhile is_digit
  if digits.isEmpty then none
  else
    let magnitude : Int := (digits_value digits 0 : Nat)
    let value : Int := if signed.1 then -magnitude else magnitude
    if INT_MIN ≤ value ∧ value ≤ INT_MAX then some value else none

/-- One decimal digit as a character. -/
def digit_char (d : Nat) : Char := Char.ofNat (48 + d)

/-- Decimal digits of `n` put in front of `acc`; `fuel` bounds the number of
digits. -/
def nat_to_string_loop : Nat → Nat → List Char → List Char
  | 0, _, acc => acc
  | fuel + 1, n, acc =>
    if n < 10 then digit_char n :: acc
    else nat_to_string_loop fuel (n / 10) (digit_char (n % 10) :: acc)

/-- Decimal text of a natural number. -/
def nat_to_string (n : Nat) : Str := nat_to_string_loop (n + 1) n []

/-- The text `stream << x` writes for an `int x`: decimal digits, with a
leading `-` for a negative value. -/
def int_to_string (x : Int) : Str :=
  if x < 0 then '-' :: nat_to_string x.natAbs else nat_to_string x.toNat

/-! ## The parser -/

/-- The `DieGroup` of the program. -/
structure DieGroup where
  count : Int
  sides : Int
  modifier : Int
  deriving DecidableEq

/-- The default member initialisers of `DieGroup`: `1d6`. -/
def DieGroup.default : DieGroup := { count := 1, sides := 6, modifier := 0 }

/-- The characters `trim` removes: `" \t\n\r"`. -/
def trim_chars : List Char := [' ', '\t', '\n', '\r']

/-- The `trim` of the program. The search from the end finds a character
whenever the search from the start did, at the same index or further
(`find_last_not_of_of_first`), so the last branch is not reached and the
length does not wrap. -/
def trim (input_string : Str) : Str :=
  match find_first_not_of input_string trim_chars with
  | none => []
  | some start_position =>
    match find_last_not_of input_string trim_chars with
    | some end_position =>
      substr input_string start_position (end_position - start_position + 1)
    | none => substr_from input_string start_position

/-- The `parse_token` of the program: the `bool` it returns and the value it
leaves in `output_group`. A `stoi` that throws is caught and gives `false`;
the `for` loop that looks for the first `+` or `-` of `remaining_string` is
`find_first_of`. -/
def parse_token (token : Str) (output_group : DieGroup) : Bool × DieGroup :=
  let trimmed_token := trim token
  if trimmed_token.isEmpty then (false, output_group)
  else
    match find_first_of trimmed_token ['d', 'D'] with
    | none => (false, output_group)
    | some dice_position =>
      let count_string := substr trimmed_token 0 dice_position
      let remaining_string := substr_from trimmed_token (dice_position + 1)
      let counted : Bool × DieGroup :=
        if count_string.isEmpty then (true, { output_group with count := 1 })
        else
          match stoi count_string with
          | none => (false, output_group)
          | some v =>
            if v < 0 then (false, { output_group with count := v })
            else (true, { output_group with count := v })
      if !counted.1 then (false, counted.2)
      else
        let group1 := counted.2
        let split : Str × Str :=
          match find_first_of remaining_string ['+', '-'] with
          | none => (remaining_string, [])
          | some modifier_position =>
            (substr remaining_string 0 modifier_position,
             substr_from remaining_string modifier_position)
        let sides_string := split.1
        let modifier_string := split.2
        if sides_string.isEmpty then (false, group1)
        else
          match stoi sides_string with
          | none => (false, group1)
          | some s =>
            let group2 : DieGroup := { group1 with sides := s }
            if s ≤ 0 then (false, group2)
            else if !modifier_string.isEmpty then
              match stoi modifier_string with
              | none => (false, group2)
              | some m => (true, { group2 with modifier := m })
            else (true, { group2 with modifier := 0 })

/-- The `while` loop of `parse_specification`, entered with the index
`start_position` and the groups pushed so far. Every iteration moves
`start_position` at least one character forward, so `fuel` equal to the
number of characters left covers every iteration
(`parse_specification_loop_fuel`). The result is the returned `bool` and the
content of `output_groups` at the return. -/
def parse_specification_loop (specification_copy : Str) :
    Nat → Nat → List DieGroup → Bool × List DieGroup
  | 0, _, output_groups => (!output_groups.isEmpty, output_groups)
  | fuel + 1, start_position, output_groups =>
    if start_position < specification_copy.length then
      let next : Str × Nat :=
        match find_from specification_copy ',' start_position with
        | none =>
          (substr_from specification_copy start_position, specification_copy.length)
        | some comma_position =>
          (substr specification_copy start_position (comma_position - start_position),
           comma_position + 1)
      let token := next.1
      if (trim token).isEmpty then
        parse_specification_loop specification_copy fuel next.2 output_groups
      else
        let parsed := parse_token token DieGroup.default
        if !parsed.1 then (false, output_groups)
        else
          parse_specification_loop specification_copy fuel next.2
            (output_groups ++ [parsed.2])
    else (!output_groups.isEmpty, output_groups)

/-- The `parse_specification` of the program: the `bool` it returns and the
content it leaves in `output_groups`, whose incoming content is cleared
first. -/
def parse_specification (specification : Str) (_output_groups : List DieGroup) :
    Bool × List DieGroup :=
  parse_specification_loop specification specification.length 0 []

/-- The `for` loop of `groups_to_string`, entered with the flag `is_first`
and the text written to `string_stream` so far. -/
def groups_to_string_loop : List DieGroup → Bool → Str → Str
  | [], _, string_stream => string_stream
  | group :: rest, is_first, string_stream =>
    let s1 := if !is_first then string_stream ++ [','] else string_stream
    let s2 := s1 ++ int_to_string group.count ++ ['d'] ++ int_to_string group.sides
    let s3 :=
      if group.modifier > 0 then s2 ++ ['+'] ++ int_to_string group.modifier
      else if group.modifier < 0 then s2 ++ int_to_string group.modifier
      else s2
    groups_to_string_loop rest false s3

/-- The `groups_to_string` of the program. -/
def groups_to_string (groups : List DieGroup) : Str :=
  groups_to_string_loop groups true []

/-! ## The roll engine -/

/-- The inner `for` loop of `roll_dice`: `count` draws over `[1, sides]`,
each added to `total`. -/
def roll_group_loop {σ : Type} (add : Int → Int → Int) (draw : σ → Int → Int × σ)
    (sides : Int) : Nat → Int → σ → Int × σ
  | 0, total, s => (total, s)
  | i + 1, total, s =>
    let drawn := draw s sides
    roll_group_loop add draw sides i (add total drawn.1) drawn.2

/-- The outer `for` loop of `roll_dice(groups)`, with the addition of the
total as a parameter: the running total and the generator state after the
groups. -/
def roll_dice_loop {σ : Type} (add : Int → Int → Int) (draw : σ → Int → Int × σ) :
    List DieGroup → Int → σ → Int × σ
  | [], total, s => (total, s)
  | group :: rest, total, s =>
    if group.sides ≤ 0 ∨ group.count ≤ 0 then roll_dice_loop add draw rest total s
    else
      let rolled := roll_group_loop add draw group.sides group.count.toNat total s
      roll_dice_loop add draw rest (add rolled.1 group.modifier) rolled.2

/-- The `roll_dice(groups)` of the program, from the generator state `s`:
the `int` it returns and the generator state it leaves. -/
def roll_dice {σ : Type} (draw : σ → Int → Int × σ) (groups : List DieGroup) (s : σ) :
    Int × σ :=
  roll_dice_loop int_add draw groups 0 s

/-- The total of `roll_dice(groups)` in exact integer arithmetic: the same
loops with the additions not reduced to 32 bits. -/
def roll_dice_exact {σ : Type} (draw : σ → Int → Int × σ) (groups : List DieGroup)
    (s : σ) : Int × σ :=
  roll_dice_loop (fun a b => a + b) draw groups 0 s

/-- The source of draws in which every die shows its highest face. -/
def draw_max (s : Unit) (sides : Int) : Int × Unit := (sides, s)

/-- The source of draws in which every die shows 1. -/
def draw_min (s : Unit) (_sides : Int) : Int × Unit := (1, s)

/-- A source of draws that replays a fixed list, one entry per die; once the
list is used up every die shows 1. -/
def draw_list (s : List Int) (_sides : Int) : Int × List Int :=
  match s with
  | [] => (1, [])
  | v :: rest => (v, rest)

/-- A source of draws that draws as `draw` does and keeps a record of every
draw made: the `sides` the draw was requested for and the value drawn. -/
def recording {σ : Type} (draw : σ → Int → Int × σ) (st : σ × List (Int × Int))
    (sides : Int) : Int × (σ × List (Int × Int)) :=
  ((draw st.1 sides).1, ((draw st.1 sides).2, st.2 ++ [(sides, (draw st.1 sides).1)]))

/-- The draws `roll_dice(groups)` makes from the generator state `s`, in
order, each as the pair of the requested `sides` and the value drawn: the
record left by running `roll_dice` on the recording source. -/
def draws_made {σ : Type} (draw : σ → Int → Int × σ) (groups : List DieGroup) (s : σ) :
    List (Int × Int) :=
  (roll_dice (recording draw) groups (s, [])).2.2

/-! ## The loop of `parse_specification`, segment by segment -/

/-- The raw segments of a text split on `','`: the text between two
consecutive commas, before the first and after the last one. -/
def segments : Str → List Str
  | [] => [[]]
  | c :: cs =>
    if c = ',' then [] :: segments cs
    else
      match segments cs with
      | [] => [[c]]
      | seg :: segs => (c :: seg) :: segs

/-- What the loop of `parse_specification` does with the successive
segments: a blank one is skipped, a rejected one stops with `false`, an
accepted one is pushed. -/
def process_segments : List Str → List DieGroup → Bool × List DieGroup
  | [], output_groups => (!output_groups.isEmpty, output_groups)
  | token :: rest, output_groups =>
    if (trim token).isEmpty then process_segments rest output_groups
    else
      let parsed := parse_token token DieGroup.default
      if !parsed.1 then (false, output_groups)
      else process_segments rest (output_groups ++ [parsed.2])

/-! ## Closed forms for the roll engine -/

/-- The groups `roll_dice` does not skip: those with `sides > 0` and
`count > 0`. -/
def rolled_groups (groups : List DieGroup) : List DieGroup :=
  groups.filter (fun g => decide (0 < g.sides ∧ 0 < g.count))

/-- The sum over all groups of `count * sides + modifier`. -/
def sum_max (groups : List DieGroup) : Int :=
  (groups.map (fun g => g.count * g.sides + g.modifier)).sum

/-- The sum over all groups of `count * 1 + modifier`. -/
def sum_min (groups : List DieGroup) : Int :=
  (groups.map (fun g => g.count * 1 + g.modifier)).sum

/-! ## The canonical text of groups -/

/-- The text `groups_to_string` writes for a modifier. -/
def modifier_text (modifier : Int) : Str :=
  if modifier > 0 then '+' :: int_to_string modifier
  else if modifier < 0 then int_to_string modifier
  else []

/-- The text `groups_to_string` writes for one group. -/
def render_group (g : DieGroup) : Str :=
  int_to_string g.count ++ 'd' :: (int_to_string g.sides ++ modifier_text g.modifier)

/-- The text of the groups after the first, each behind its comma. -/
def render_rest : List DieGroup → Str
  | [] => []
  | g :: gs => ',' :: (render_group g ++ render_rest gs)

/-- The texts of the groups joined with `','`. -/
def render_groups : List DieGroup → Str
  | [] => []
  | g :: gs => render_group g ++ render_rest gs

/-- A value of type `int`. -/
def is_int (x : Int) : Prop := INT_MIN ≤ x ∧ x ≤ INT_MAX

instance (x : Int) : Decidable (is_int x) := by unfold is_int; infer_instance

/-- A group as the parser accepts it: `count ≥ 0`, `sides ≥ 1`, and the three
fields values of type `int`. -/
def valid_group (g : DieGroup) : Prop :=
  0 ≤ g.count ∧ 1 ≤ g.sides ∧ is_int g.count ∧ is_int g.sides ∧ is_int g.modifier

instance (g : DieGroup) : Decidable (valid_group g) := by unfold valid_group; infer_instance

/-! ## The blocks of `parse_token` -/

/-- The block of `parse_token` that reads the count: whether it goes on, and
`output_group` after it. -/
def parse_count (output_group : DieGroup) (count_string : Str) : Bool × DieGroup :=
  if count_string.isEmpty then (true, { output_group with count := 1 })
  else
    match stoi count_string with
    | none => (false, output_group)
    | some v =>
      if v < 0 then (false, { output_group with count := v })
      else (true, { output_group with count := v })

/-- The block of `parse_token` that splits the text after the separator at
its first sign: the sides text and the modifier text. -/
def split_modifier (remaining_string : Str) : Str × Str :=
  match find_first_of remaining_string ['+', '-'] with
  | none => (remaining_string, [])
  | some modifier_position =>
    (substr remaining_string 0 modifier_position,
     substr_from remaining_string modifier_position)

/-- The block of `parse_token` that reads the sides and the modifier. -/
def parse_sides_modifier (group1 : DieGroup) (sides_string modifier_string : Str) :
    Bool × DieGroup :=
  if sides_string.isEmpty then (false, group1)
  else
    match stoi sides_string with
    | none => (false, group1)
    | some s =>
      let group2 : DieGroup := { group1 with sides := s }
      if s ≤ 0 then (false, group2)
      else if !modifier_string.isEmpty then
        match stoi modifier_string with
        | none => (false, group2)
        | some m => (true, { group2 with modifier := m })
      else (true, { group2 with modifier := 0 })

/-! ## Sample inputs -/

/-- The groups of the specification `2d6+2,3d10, 8d10+6`. -/
def sample_groups : List DieGroup :=
  [{ count := 2, sides := 6, modifier := 2 }, { count := 3, sides := 10, modifier := 0 },
   { count := 8, sides := 10, modifier := 6 }]

/-- The groups that the loop of `parse_specification` pushes for a run of
segments none of which is rejected: one per non-blank segment, in order. -/
def accepted_groups (segs : List Str) : List DieGroup :=
  (segs.filter (fun seg => !(trim seg).isEmpty)).map
    (fun seg => (parse_token seg DieGroup.default).2)

/-! ## Number texts -/

/-- The text `s` starts with an integer literal of value `v`, the way `stoi`
reads one: white space, an optional sign, a longest run of at least one
digit, and then anything; the value is within the range of `int`. -/
def starts_with_int (s : Str) (v : Int) : Prop :=
  ∃ (ws sg ds tl : Str), s = ws ++ (sg ++ (ds ++ tl)) ∧
    (∀ c ∈ ws, isspace c = true) ∧
    (sg = [] ∨ sg = ['+'] ∨ sg = ['-']) ∧
    ds ≠ [] ∧ (∀ c ∈ ds, is_digit c = true) ∧
    (∀ c r, tl = c :: r → is_digit c = false) ∧
    v = (if sg = ['-'] then -((digits_value ds 0 : Nat) : Int)
         else ((digits_value ds 0 : Nat) : Int)) ∧
    is_int v

/-- The text `s` is a sign character directly followed by a longest run of
at least one digit, and then anything; `v` is the signed value, within the
range of `int`. -/
def sign_then_digits (s : Str) (v : Int) : Prop :=
  ∃ (sign : Char) (ds tl : Str), s = sign :: (ds ++ tl) ∧
    (sign = '+' ∨ sign = '-') ∧
    ds ≠ [] ∧ (∀ c ∈ ds, is_digit c = true) ∧
    (∀ c r, tl = c :: r → is_digit c = false) ∧
    v = (if sign = '-' then -((digits_value ds 0 : Nat) : Int)
         else ((digits_value ds 0 : Nat) : Int)) ∧
    is_int v

/-! ## White space around a text -/

/-- Whether `trim` removes the character `c` at an end of a text. -/
def is_trim_char (c : Char) : Bool := decide (c ∈ trim_chars)

/-- The text without its leading run of trimmed characters. -/
def trim_left (s : Str) : Str := s.dropWhile is_trim_char

/-- The text without its trailing run of trimmed characters. -/
def trim_right (s : Str) : Str := s.rdropWhile is_trim_char

/-! ## The canonical rendering, in the words of the specification -/

/-- The decimal text of an integer: its digits, behind a `-` when it is
negative. -/
def decimal (x : Int) : Str := (toString x).toList

/-- The rendering of one group: `{count}d{sides}`, followed by `+{modifier}`
when the modifier is positive, by `{modifier}` with its `-` when it is
negative, and by nothing when it is zero. -/
def canonical_term (g : DieGroup) : Str :=
  decimal g.count ++ "d".toList ++ decimal g.sides ++
    (if g.modifier > 0 then "+".toList ++ decimal g.modifier
     else if g.modifier < 0 then decimal g.modifier
     else [])

/-- The canonical rendering of a group sequence: the renderings of its
groups joined with `','`. -/
def canonical_text (groups : List DieGroup) : Str :=
  List.intercalate ",".toList (groups.map canonical_term)

/-! ## The text overload and the simulation -/

/-- The `roll_dice(specification)` of the program, from the generator state
`s`: the error it throws, with its message, when `parse_specification`
returns `false`, and what `roll_dice(groups)` returns otherwise. -/
def roll_dice_text {σ : Type} (draw : σ → Int → Int × σ) (specification : Str) (s : σ) :
    Except Str (Int × σ) :=
  let parsed := parse_specification specification []
  if !parsed.1 then Except.error ("Invalid dice spec: ".toList ++ specification)
  else Except.ok (roll_dice draw parsed.2 s)

/-- The `std::unordered_map<int, long long>` of the program: its entries, a
key with its count, every key once (`simulate_dice_rolls_keys_nodup`). -/
abbrev CountMap := List (Int × Int)

/-- The statement `++count_map[key]`: the count of `key` goes up by one, from
0 when the key was not there. -/
def count_map_increment : CountMap → Int → CountMap
  | [], key => [(key, 0 + 1)]
  | (k, v) :: rest, key =>
    if k = key then (k, v + 1) :: rest else (k, v) :: count_map_increment rest key

/-- The lookup `count_map.find(value)`: the count stored for `value`, `none`
for `count_map.end()`. -/
def count_map_find : CountMap → Int → Option Int
  | [], _ => none
  | (k, v) :: rest, value => if k = value then some v else count_map_find rest value

/-- The `for` loop of `simulate_dice_rolls` with `remaining` trials to go, at
the trial of index `trial`. Every call of `roll_dice(groups)` makes its own
generator; `seeds trial` is the state of the generator of that trial. -/
def simulate_dice_rolls_loop {σ : Type} (draw : σ → Int → Int × σ) (groups : List DieGroup)
    (seeds : Nat → σ) : Nat → Nat → CountMap → CountMap
  | 0, _, count_map => count_map
  | remaining + 1, trial, count_map =>
    let roll_result := (roll_dice draw groups (seeds trial)).1
    simulate_dice_rolls_loop draw groups seeds remaining (trial + 1)
      (count_map_increment count_map roll_result)

/-- The `simulate_dice_rolls` of the program; the loop runs
`number_of_trials` times, and not at all for a negative number. -/
def simulate_dice_rolls {σ : Type} (draw : σ → Int → Int × σ) (groups : List DieGroup)
    (number_of_trials : Int) (seeds : Nat → σ) : CountMap :=
  simulate_dice_rolls_loop draw groups seeds number_of_trials.toNat 0 []

/-- The outcomes of `n` trials from the trial of index `first` on, in
order. -/
def trial_outcomes {σ : Type} (draw : σ → Int → Int × σ) (groups : List DieGroup)
    (seeds : Nat → σ) : Nat → Nat → List Int
  | 0, _ => []
  | n + 1, first =>
    (roll_dice draw groups (seeds first)).1 :: trial_outcomes draw groups seeds n (first + 1)

/-- A seeding for the replaying source: the generator of trial `i` replays
the three draws `i % 6 + 1`, `i % 3 + 1` and `i % 2 + 1`. -/
def sample_seeds (i : Nat) : List Int :=
  [(i : Int) % 6 + 1, (i : Int) % 3 + 1, (i : Int) % 2 + 1]

/-! ## Searching in strings -/

theorem find_first_of_eq_none {chars : List Char} :
    ∀ {s : Str}, (∀ c ∈ s, c ∉ chars) → find_first_of s chars = none
  | [], _ => rfl
  | c :: cs, h => by
    have hc : c ∉ chars := h c (List.mem_cons_self _ _)
    have ih := find_first_of_eq_none (s := cs) (fun x hx => h x (List.mem_cons_of_mem _ hx))
    simp [find_first_of, hc, ih]

theorem find_first_of_append {chars : List Char} {c : Char} (hc : c ∈ chars) (b : Str) :
    ∀ {a : Str}, (∀ x ∈ a, x ∉ chars) → find_first_of (a ++ c :: b) chars = some a.length
  | [], _ => by simp [find_first_of, hc]
  | x :: a, h => by
    have hx : x ∉ chars := h x (List.mem_cons_self _ _)
    have ih := find_first_of_append hc b (a := a) (fun y hy => h y (List.mem_cons_of_mem _ hy))
    simp [find_first_of, hx, ih]

theorem find_first_of_none_iff {chars : List Char} {s : Str} :
    find_first_of s chars = none ↔ ∀ c ∈ s, c ∉ chars := by
  constructor
  · induction s with
    | nil => simp
    | cons c cs ih =>
      intro h
      by_cases hc : c ∈ chars
      · simp [find_first_of, hc] at h
      · simp only [find_first_of, hc, if_false] at h
        cases hf : find_first_of cs chars with
        | some i => rw [hf] at h; simp at h
        | none =>
          intro x hx
          rcases List.mem_cons.1 hx with rfl | hx
          · exact hc
          · exact ih hf x hx
  · exact find_first_of_eq_none

/-- A found index splits the string at the first character of `chars`. -/
theorem find_first_of_some {chars : List Char} :
    ∀ {s : Str} {i : Nat}, find_first_of s chars = some i →
      ∃ c, c ∈ chars ∧ s = s.take i ++ c :: s.drop (i + 1) ∧
        (∀ x ∈ s.take i, x ∉ chars) ∧ (s.take i).length = i
  | [], i, h => by simp [find_first_of] at h
  | c :: cs, i, h => by
    by_cases hc : c ∈ chars
    · simp [find_first_of, hc] at h
      subst h
      exact ⟨c, hc, by simp, by simp, by simp⟩
    · simp only [find_first_of, hc, if_false] at h
      cases hf : find_first_of cs chars with
      | none => rw [hf] at h; simp at h
      | some j =>
        rw [hf] at h
        simp at h
        subst h
        obtain ⟨d, hd, hs, hno, hlen⟩ := find_first_of_some hf
        refine ⟨d, hd, ?_, ?_, ?_⟩
        · simp only [List.take_succ_cons, List.drop_succ_cons, List.cons_append]
          rw [← hs]
        · intro x hx
          simp only [List.take_succ_cons] at hx
          rcases List.mem_cons.1 hx with rfl | hx
          · exact hc
          · exact hno x hx
        · simp [hlen]

/-! ## Segments -/

theorem segments_no_comma : ∀ {a : Str}, ',' ∉ a → segments a = [a]
  | [], _ => rfl
  | c :: cs, h => by
    have hc : c ≠ ',' := fun e => h (e ▸ List.mem_cons_self _ _)
    have ih := segments_no_comma (a := cs) (fun hx => h (List.mem_cons_of_mem _ hx))
    simp [segments, hc, ih]

theorem segments_append_comma (b : Str) :
    ∀ {a : Str}, ',' ∉ a → segments (a ++ ',' :: b) = a :: segments b
  | [], _ => by simp [segments]
  | c :: cs, h => by
    have hc : c ≠ ',' := fun e => h (e ▸ List.mem_cons_self _ _)
    have ih := segments_append_comma b (a := cs) (fun hx => h (List.mem_cons_of_mem _ hx))
    simp [segments, hc, ih]

/-- After a blank segment the loop's verdict is that of the groups so far. -/
theorem process_segments_nil_seg (out : List DieGroup) :
    process_segments [[]] out = (!out.isEmpty, out) := by
  simp [process_segments, trim, find_first_not_of]

/-- The loop of `parse_specification` from index `start_position` does what
`process_segments` does with the segments of the text from that index on,
for every `fuel` that is at least the number of characters left. -/
theorem parse_specification_loop_eq (spec : Str) :
    ∀ (fuel start : Nat) (out : List DieGroup), spec.length - start ≤ fuel →
      parse_specification_loop spec fuel start out
        = process_segments (segments (spec.drop start)) out := by
  intro fuel
  induction fuel with
  | zero =>
    intro start out h
    have hd : spec.drop start = [] := List.drop_eq_nil_of_le (by omega)
    rw [hd]
    simp [parse_specification_loop, segments, process_segments_nil_seg]
  | succ fuel ih =>
    intro start out h
    by_cases hlt : start < spec.length
    · rw [parse_specification_loop, if_pos hlt]
      cases hf : find_first_of (spec.drop start) [','] with
      | none =>
        have hno : ',' ∉ spec.drop start := by
          have := find_first_of_none_iff.1 hf
          intro hm
          exact this _ hm (List.mem_singleton_self _)
        have hend : spec.drop spec.length = [] := List.drop_eq_nil_of_le (le_refl _)
        simp only [find_from, hf, substr_from]
        rw [segments_no_comma hno, process_segments]
        rw [ih spec.length out (by omega), ih spec.length _ (by omega), hend]
        have hseg : segments [] = [[]] := rfl
        rw [hseg, process_segments_nil_seg, process_segments_nil_seg]
        rfl
      | some i =>
        obtain ⟨c, hc, hs, hno, hlen⟩ := find_first_of_some hf
        have hc' : c = ',' := List.mem_singleton.1 hc
        subst hc'
        have hno' : ',' ∉ (spec.drop start).take i := fun hm => hno _ hm (List.mem_singleton_self _)
        have hdrop : (spec.drop start).drop (i + 1) = spec.drop (start + i + 1) := by
          rw [List.drop_drop]; congr 1
        simp only [find_from, hf, substr]
        have e1 : start + i - start = i := by omega
        rw [e1]
        conv_rhs => rw [hs, segments_append_comma _ hno', process_segments, hdrop]
        have hfuel : spec.length - (start + i + 1) ≤ fuel := by omega
        rw [ih (start + i + 1) out hfuel, ih (start + i + 1) _ hfuel]
    · have hd : spec.drop start = [] := List.drop_eq_nil_of_le (by omega)
      rw [parse_specification_loop, if_neg hlt, hd]
      simp [segments, process_segments_nil_seg]

theorem parse_specification_eq (spec : Str) (prior : List DieGroup) :
    parse_specification spec prior = process_segments (segments spec) [] := by
  rw [parse_specification, parse_specification_loop_eq spec _ 0 [] (by omega)]
  rfl

/-- More fuel than the characters left does not change the loop. -/
theorem parse_specification_loop_fuel (spec : Str) (fuel start : Nat) (out : List DieGroup)
    (h : spec.length - start ≤ fuel) :
    parse_specification_loop spec fuel start out
      = parse_specification_loop spec (spec.length - start) start out := by
  rw [parse_specification_loop_eq spec fuel start out h,
    parse_specification_loop_eq spec _ start out (le_refl _)]

/-! ## The roll engine -/

theorem int_wrap_add_left (a b : Int) : int_wrap (int_wrap a + b) = int_wrap (a + b) := by
  unfold int_wrap; omega

theorem int_wrap_of_range {x : Int} (h1 : INT_MIN ≤ x) (h2 : x ≤ INT_MAX) : int_wrap x = x := by
  unfold INT_MIN at h1; unfold INT_MAX at h2; unfold int_wrap; omega

theorem int_wrap_range (x : Int) : INT_MIN ≤ int_wrap x ∧ int_wrap x ≤ INT_MAX := by
  unfold INT_MIN INT_MAX int_wrap; omega

/-- The 32-bit inner loop is the exact inner loop reduced to 32 bits. -/
theorem roll_group_loop_wrap {σ : Type} (draw : σ → Int → Int × σ) (sides : Int) :
    ∀ (n : Nat) (total : Int) (s : σ),
      roll_group_loop int_add draw sides n (int_wrap total) s
        = (int_wrap (roll_group_loop (fun a b => a + b) draw sides n total s).1,
           (roll_group_loop (fun a b => a + b) draw sides n total s).2)
  | 0, _, _ => rfl
  | n + 1, total, s => by
    simp only [roll_group_loop, int_add]
    rw [int_wrap_add_left, roll_group_loop_wrap draw sides n]

/-- The 32-bit outer loop is the exact outer loop reduced to 32 bits. -/
theorem roll_dice_loop_wrap {σ : Type} (draw : σ → Int → Int × σ) :
    ∀ (groups : List DieGroup) (total : Int) (s : σ),
      roll_dice_loop int_add draw groups (int_wrap total) s
        = (int_wrap (roll_dice_loop (fun a b => a + b) draw groups total s).1,
           (roll_dice_loop (fun a b => a + b) draw groups total s).2)
  | [], _, _ => rfl
  | g :: gs, total, s => by
    by_cases h : g.sides ≤ 0 ∨ g.count ≤ 0
    · simp only [roll_dice_loop, if_pos h]
      exact roll_dice_loop_wrap draw gs total s
    · simp only [roll_dice_loop, if_neg h]
      rw [roll_group_loop_wrap draw g.sides, int_add, int_wrap_add_left,
        roll_dice_loop_wrap draw gs]

/-- The `int` returned by `roll_dice` is the exact total reduced to 32 bits,
and both leave the generator in the same state. -/
theorem roll_dice_eq_wrap {σ : Type} (draw : σ → Int → Int × σ) (groups : List DieGroup)
    (s : σ) :
    roll_dice draw groups s
      = (int_wrap (roll_dice_exact draw groups s).1, (roll_dice_exact draw groups s).2) := by
  have h0 : (0 : Int) = int_wrap 0 := by decide
  unfold roll_dice roll_dice_exact
  conv_lhs => rw [h0]
  exact roll_dice_loop_wrap draw groups 0 s

/-- Skipped groups can be removed beforehand, whatever the addition. -/
theorem roll_dice_loop_rolled {σ : Type} (add : Int → Int → Int) (draw : σ → Int → Int × σ) :
    ∀ (groups : List DieGroup) (total : Int) (s : σ),
      roll_dice_loop add draw groups total s
        = roll_dice_loop add draw (rolled_groups groups) total s
  | [], _, _ => rfl
  | g :: gs, total, s => by
    by_cases h : g.sides ≤ 0 ∨ g.count ≤ 0
    · have hf : decide (0 < g.sides ∧ 0 < g.count) = false := by
        simp only [decide_eq_false_iff_not]; omega
      simp only [rolled_groups, List.filter_cons, hf, roll_dice_loop, if_pos h]
      exact roll_dice_loop_rolled add draw gs total s
    · have hf : decide (0 < g.sides ∧ 0 < g.count) = true := by
        simp only [decide_eq_true_eq]; omega
      simp only [rolled_groups, List.filter_cons, hf, roll_dice_loop, if_neg h, if_true]
      exact roll_dice_loop_rolled add draw gs _ _

/-- Recording the draws changes neither the total nor the generator state of
the inner loop. -/
theorem roll_group_loop_recording {σ : Type} (add : Int → Int → Int)
    (draw : σ → Int → Int × σ) (sides : Int) :
    ∀ (n : Nat) (total : Int) (s : σ) (tr : List (Int × Int)),
      (roll_group_loop add (recording draw) sides n total (s, tr)).1
          = (roll_group_loop add draw sides n total s).1 ∧
        (roll_group_loop add (recording draw) sides n total (s, tr)).2.1
          = (roll_group_loop add draw sides n total s).2
  | 0, _, _, _ => ⟨rfl, rfl⟩
  | n + 1, total, s, tr => by
    simp only [roll_group_loop, recording]
    exact roll_group_loop_recording add draw sides n _ _ _

/-- Recording the draws changes neither the total nor the generator state of
the outer loop. -/
theorem roll_dice_loop_recording {σ : Type} (add : Int → Int → Int)
    (draw : σ → Int → Int × σ) :
    ∀ (groups : List DieGroup) (total : Int) (s : σ) (tr : List (Int × Int)),
      (roll_dice_loop add (recording draw) groups total (s, tr)).1
          = (roll_dice_loop add draw groups total s).1 ∧
        (roll_dice_loop add (recording draw) groups total (s, tr)).2.1
          = (roll_dice_loop add draw groups total s).2
  | [], _, _, _ => ⟨rfl, rfl⟩
  | g :: gs, total, s, tr => by
    by_cases h : g.sides ≤ 0 ∨ g.count ≤ 0
    · simp only [roll_dice_loop, if_pos h]
      exact roll_dice_loop_recording add draw gs total s tr
    · simp only [roll_dice_loop, if_neg h]
      obtain ⟨e1, e2⟩ := roll_group_loop_recording add draw g.sides g.count.toNat total s tr
      generalize roll_group_loop add (recording draw) g.sides g.count.toNat total (s, tr) = r
        at e1 e2
      obtain ⟨t, s', tr'⟩ := r
      simp only at e1 e2
      subst e1 e2
      exact roll_dice_loop_recording add draw gs _ _ tr'

/-- The record of the draws does not depend on how the total is added. -/
theorem roll_dice_loop_record_add {σ : Type} (add add' : Int → Int → Int)
    (draw : σ → Int → Int × σ) :
    (∀ (sides : Int) (n : Nat) (total total' : Int) (st : σ × List (Int × Int)),
      (roll_group_loop add (recording draw) sides n total st).2
        = (roll_group_loop add' (recording draw) sides n total' st).2) ∧
    ∀ (groups : List DieGroup) (total total' : Int) (st : σ × List (Int × Int)),
      (roll_dice_loop add (recording draw) groups total st).2
        = (roll_dice_loop add' (recording draw) groups total' st).2 := by
  have hin : ∀ (sides : Int) (n : Nat) (total total' : Int) (st : σ × List (Int × Int)),
      (roll_group_loop add (recording draw) sides n total st).2
        = (roll_group_loop add' (recording draw) sides n total' st).2 := by
    intro sides n
    induction n with
    | zero => intro _ _ _; rfl
    | succ n ih =>
      intro total total' st
      simp only [roll_group_loop]
      exact ih _ _ _
  refine ⟨hin, ?_⟩
  intro groups
  induction groups with
  | nil => intro _ _ _; rfl
  | cons g gs ih =>
    intro total total' st
    by_cases h : g.sides ≤ 0 ∨ g.count ≤ 0
    · simp only [roll_dice_loop, if_pos h]
      exact ih _ _ _
    · simp only [roll_dice_loop, if_neg h]
      rw [hin g.sides g.count.toNat total total' st]
      exact ih _ _ _

/-- Bounds of the exact inner loop run on the recording source, when every
recorded draw is within its range; the draws recorded before are among
them. -/
theorem roll_group_loop_bounds {σ : Type} (draw : σ → Int → Int × σ) (sides : Int) :
    ∀ (n : Nat) (total : Int) (s : σ) (tr : List (Int × Int)),
      (∀ p ∈ (roll_group_loop (fun a b => a + b) (recording draw) sides n total (s, tr)).2.2,
        1 ≤ p.2 ∧ p.2 ≤ p.1) →
      (∀ p ∈ tr, 1 ≤ p.2 ∧ p.2 ≤ p.1) ∧
      total + n ≤ (roll_group_loop (fun a b => a + b) (recording draw) sides n total (s, tr)).1 ∧
      (roll_group_loop (fun a b => a + b) (recording draw) sides n total (s, tr)).1
        ≤ total + n * sides
  | 0, total, s, tr, h => by
    simp only [roll_group_loop] at h ⊢
    exact ⟨h, by simp, by simp⟩
  | n + 1, total, s, tr, h => by
    simp only [roll_group_loop, recording] at h ⊢
    obtain ⟨htr, h1, h2⟩ := roll_group_loop_bounds draw sides n _ _ _ h
    have hv := htr (sides, (draw s sides).1) (by simp)
    simp only at hv
    refine ⟨fun p hp => htr p (List.mem_append_left _ hp), ?_, ?_⟩
    · push_cast; linarith [hv.1]
    · have : ((n : Int) + 1) * sides = n * sides + sides := by ring
      push_cast; linarith [hv.2]

/-- Bounds of the exact outer loop run on the recording source, when every
recorded draw is within its range. -/
theorem roll_dice_loop_bounds {σ : Type} (draw : σ → Int → Int × σ) :
    ∀ (groups : List DieGroup), (∀ g ∈ groups, 1 ≤ g.count ∧ 1 ≤ g.sides) →
      ∀ (total : Int) (s : σ) (tr : List (Int × Int)),
        (∀ p ∈ (roll_dice_loop (fun a b => a + b) (recording draw) groups total (s, tr)).2.2,
          1 ≤ p.2 ∧ p.2 ≤ p.1) →
        (∀ p ∈ tr, 1 ≤ p.2 ∧ p.2 ≤ p.1) ∧
        total + sum_min groups
          ≤ (roll_dice_loop (fun a b => a + b) (recording draw) groups total (s, tr)).1 ∧
        (roll_dice_loop (fun a b => a + b) (recording draw) groups total (s, tr)).1
          ≤ total + sum_max groups
  | [], _, total, s, tr, h => by
    simp only [roll_dice_loop] at h ⊢
    exact ⟨h, by simp [sum_min], by simp [sum_max]⟩
  | g :: gs, hg, total, s, tr, h => by
    obtain ⟨hc, hs⟩ := hg g (List.mem_cons_self _ _)
    have hn : ¬ (g.sides ≤ 0 ∨ g.count ≤ 0) := by omega
    have hcast : ((g.count.toNat : Nat) : Int) = g.count := Int.toNat_of_nonneg (by omega)
    simp only [roll_dice_loop, if_neg hn] at h ⊢
    have hb := roll_group_loop_bounds draw g.sides g.count.toNat total s tr
    generalize roll_group_loop (fun a b => a + b) (recording draw) g.sides g.count.toNat total
      (s, tr) = r at h hb ⊢
    obtain ⟨t, s', tr'⟩ := r
    simp only at h hb ⊢
    obtain ⟨htr', i1, i2⟩ := roll_dice_loop_bounds draw gs
      (fun x hx => hg x (List.mem_cons_of_mem _ hx)) (t + g.modifier) s' tr' h
    obtain ⟨htr, b1, b2⟩ := hb htr'
    rw [hcast] at b1 b2
    simp only [sum_min, sum_max, List.map_cons, List.sum_cons] at i1 i2 ⊢
    exact ⟨htr, by linarith, by linarith⟩

/-- Bounds of the exact total of `roll_dice` when every draw it makes is
within the range it was requested for. -/
theorem roll_dice_exact_bounds {σ : Type} (draw : σ → Int → Int × σ) (groups : List DieGroup)
    (s : σ) (hg : ∀ g ∈ groups, 1 ≤ g.count ∧ 1 ≤ g.sides)
    (hd : ∀ p ∈ draws_made draw groups s, 1 ≤ p.2 ∧ p.2 ≤ p.1) :
    sum_min groups ≤ (roll_dice_exact draw groups s).1 ∧
      (roll_dice_exact draw groups s).1 ≤ sum_max groups := by
  have hrec : (roll_dice_loop int_add (recording draw) groups 0 (s, [])).2
      = (roll_dice_loop (fun a b => a + b) (recording draw) groups 0 (s, [])).2 :=
    (roll_dice_loop_record_add int_add (fun a b => a + b) draw).2 groups 0 0 (s, [])
  have hd' : ∀ p ∈ (roll_dice_loop (fun a b => a + b) (recording draw) groups 0 (s, [])).2.2,
      1 ≤ p.2 ∧ p.2 ≤ p.1 := by
    intro p hp
    apply hd p
    unfold draws_made roll_dice
    rw [hrec]
    exact hp
  obtain ⟨-, b1, b2⟩ := roll_dice_loop_bounds draw groups hg 0 s [] hd'
  rw [(roll_dice_loop_recording (fun a b => a + b) draw groups 0 s []).1] at b1 b2
  unfold roll_dice_exact
  constructor
  · linarith
  · linarith

/-- The exact inner loop when every die shows `v`. -/
theorem roll_group_loop_const (v : Int) (draw : Unit → Int → Int × Unit) (sides : Int)
    (hd : ∀ s, draw s sides = (v, s)) :
    ∀ (n : Nat) (total : Int) (s : Unit),
      roll_group_loop (fun a b => a + b) draw sides n total s = (total + n * v, s)
  | 0, total, s => by simp [roll_group_loop]
  | n + 1, total, s => by
    simp only [roll_group_loop, hd]
    rw [roll_group_loop_const v draw sides hd n]
    push_cast
    congr 1
    ring

/-- The exact total when every die shows its highest face. -/
theorem roll_dice_loop_max :
    ∀ (groups : List DieGroup), (∀ g ∈ groups, 1 ≤ g.count ∧ 0 < g.sides) →
      ∀ (total : Int) (s : Unit),
        roll_dice_loop (fun a b => a + b) draw_max groups total s = (total + sum_max groups, s)
  | [], _, total, s => by simp [roll_dice_loop, sum_max]
  | g :: gs, hg, total, s => by
    obtain ⟨hc, hs⟩ := hg g (List.mem_cons_self _ _)
    have hn : ¬ (g.sides ≤ 0 ∨ g.count ≤ 0) := by omega
    have hcast : ((g.count.toNat : Nat) : Int) = g.count := Int.toNat_of_nonneg (by omega)
    simp only [roll_dice_loop, if_neg hn]
    rw [roll_group_loop_const g.sides draw_max g.sides (fun _ => rfl), hcast,
      roll_dice_loop_max gs (fun x hx => hg x (List.mem_cons_of_mem _ hx))]
    simp only [sum_max, List.map_cons, List.sum_cons]
    congr 1
    ring

/-- The exact total when every die shows 1. -/
theorem roll_dice_loop_min :
    ∀ (groups : List DieGroup), (∀ g ∈ groups, 1 ≤ g.count ∧ 0 < g.sides) →
      ∀ (total : Int) (s : Unit),
        roll_dice_loop (fun a b => a + b) draw_min groups total s = (total + sum_min groups, s)
  | [], _, total, s => by simp [roll_dice_loop, sum_min]
  | g :: gs, hg, total, s => by
    obtain ⟨hc, hs⟩ := hg g (List.mem_cons_self _ _)
    have hn : ¬ (g.sides ≤ 0 ∨ g.count ≤ 0) := by omega
    have hcast : ((g.count.toNat : Nat) : Int) = g.count := Int.toNat_of_nonneg (by omega)
    simp only [roll_dice_loop, if_neg hn]
    rw [roll_group_loop_const 1 draw_min g.sides (fun _ => rfl), hcast,
      roll_dice_loop_min gs (fun x hx => hg x (List.mem_cons_of_mem _ hx))]
    simp only [sum_min, List.map_cons, List.sum_cons]
    congr 1
    ring

theorem rolled_groups_valid (groups : List DieGroup) :
    ∀ g ∈ rolled_groups groups, 1 ≤ g.count ∧ 0 < g.sides := by
  intro g hg
  simp only [rolled_groups, List.mem_filter, decide_eq_true_eq] at hg
  omega

/-! ## Decimal text and `stoi` -/

theorem digit_char_spec {d : Nat} (h : d < 10) :
    is_digit (digit_char d) = true ∧ (digit_char d).toNat - 48 = d := by
  have key : ∀ k : Fin 10,
      is_digit (digit_char k.val) = true ∧ (digit_char k.val).toNat - 48 = k.val := by
    decide
  exact key ⟨d, h⟩

theorem nat_to_string_loop_acc :
    ∀ (fuel n : Nat) (acc : List Char),
      nat_to_string_loop fuel n acc = nat_to_string_loop fuel n [] ++ acc
  | 0, _, _ => by simp [nat_to_string_loop]
  | fuel + 1, n, acc => by
    by_cases h : n < 10
    · simp [nat_to_string_loop, h]
    · simp only [nat_to_string_loop, if_neg h]
      rw [nat_to_string_loop_acc fuel (n / 10) (digit_char (n % 10) :: acc),
        nat_to_string_loop_acc fuel (n / 10) [digit_char (n % 10)]]
      simp

/-- Fuel above `n` is enough to write `n`: more of it changes nothing. -/
theorem nat_to_string_loop_fuel :
    ∀ (fuel fuel' n : Nat) (acc : List Char), n < fuel → n < fuel' →
      nat_to_string_loop fuel n acc = nat_to_string_loop fuel' n acc
  | 0, _, _, _, h, _ => by omega
  | _ + 1, 0, _, _, _, h => by omega
  | fuel + 1, fuel' + 1, n, acc, h, h' => by
    by_cases h10 : n < 10
    · simp [nat_to_string_loop, h10]
    · simp only [nat_to_string_loop, if_neg h10]
      exact nat_to_string_loop_fuel fuel fuel' (n / 10) _ (by omega) (by omega)

/-- The text written for some values of type `int`. -/
theorem int_to_string_samples :
    int_to_string 0 = "0".toList ∧ int_to_string 7 = "7".toList ∧
      int_to_string 10 = "10".toList ∧ int_to_string (-3) = "-3".toList ∧
      int_to_string 2147483647 = "2147483647".toList ∧
      int_to_string (-2147483648) = "-2147483648".toList := by
  decide

theorem digits_value_append :
    ∀ (a b : List Char) (acc : Nat),
      digits_value (a ++ b) acc = digits_value b (digits_value a acc)
  | [], _, _ => rfl
  | c :: a, b, acc => by
    simp only [List.cons_append, digits_value]
    exact digits_value_append a b _

/-- The digits written for `n` are decimal digits, at least one, and read
back as `n`. -/
theorem nat_to_string_loop_spec :
    ∀ (fuel n : Nat), n < fuel →
      (∀ c ∈ nat_to_string_loop fuel n [], is_digit c = true) ∧
      nat_to_string_loop fuel n [] ≠ [] ∧
      digits_value (nat_to_string_loop fuel n []) 0 = n
  | 0, n, h => by omega
  | fuel + 1, n, h => by
    by_cases h10 : n < 10
    · have hd := digit_char_spec h10
      simp only [nat_to_string_loop, if_pos h10]
      refine ⟨?_, by simp, ?_⟩
      · intro c hc
        rw [List.mem_singleton.1 hc]
        exact hd.1
      · simp [digits_value, hd.2]
    · have hlt : n / 10 < fuel := by omega
      obtain ⟨ih1, ih2, ih3⟩ := nat_to_string_loop_spec fuel (n / 10) hlt
      have hd := digit_char_spec (Nat.mod_lt n (by decide : 10 > 0))
      simp only [nat_to_string_loop, if_neg h10]
      rw [nat_to_string_loop_acc]
      refine ⟨?_, by simp, ?_⟩
      · intro c hc
        rcases List.mem_append.1 hc with hc | hc
        · exact ih1 c hc
        · rw [List.mem_singleton.1 hc]
          exact hd.1
      · rw [digits_value_append, ih3]
        simp only [digits_value, hd.2]
        omega

theorem nat_to_string_digits (n : Nat) : ∀ c ∈ nat_to_string n, is_digit c = true :=
  (nat_to_string_loop_spec (n + 1) n (Nat.lt_succ_self n)).1

theorem nat_to_string_ne_nil (n : Nat) : nat_to_string n ≠ [] :=
  (nat_to_string_loop_spec (n + 1) n (Nat.lt_succ_self n)).2.1

theorem digits_value_nat_to_string (n : Nat) : digits_value (nat_to_string n) 0 = n :=
  (nat_to_string_loop_spec (n + 1) n (Nat.lt_succ_self n)).2.2

theorem is_digit_not_space {c : Char} (h : is_digit c = true) : isspace c = false := by
  simp only [is_digit, Bool.and_eq_true, decide_eq_true_eq] at h
  have h1 : c ≠ ' ' := by rintro rfl; revert h; decide
  have h2 : c ≠ '\t' := by rintro rfl; revert h; decide
  have h3 : c ≠ '\n' := by rintro rfl; revert h; decide
  have h4 : c ≠ Char.ofNat 11 := by rintro rfl; revert h; decide
  have h5 : c ≠ Char.ofNat 12 := by rintro rfl; revert h; decide
  have h6 : c ≠ '\r' := by rintro rfl; revert h; decide
  simp [isspace, h1, h2, h3, h4, h5, h6]

/-- A digit is none of the characters the parser looks for. -/
theorem is_digit_ne {c : Char} (h : is_digit c = true) :
    c ≠ '-' ∧ c ≠ '+' ∧ c ≠ 'd' ∧ c ≠ 'D' ∧ c ≠ ',' ∧ c ∉ trim_chars := by
  simp only [is_digit, Bool.and_eq_true, decide_eq_true_eq] at h
  refine ⟨?_, ?_, ?_, ?_, ?_, ?_⟩
  · rintro rfl; revert h; decide
  · rintro rfl; revert h; decide
  · rintro rfl; revert h; decide
  · rintro rfl; revert h; decide
  · rintro rfl; revert h; decide
  · intro hm
    simp only [trim_chars, List.mem_cons, List.mem_singleton, List.not_mem_nil, or_false] at hm
    rcases hm with rfl | rfl | rfl | rfl <;> revert h <;> decide

theorem takeWhile_all {p : Char → Bool} :
    ∀ {l : List Char}, (∀ c ∈ l, p c = true) → l.takeWhile p = l
  | [], _ => rfl
  | c :: l, h => by
    have hc := h c (List.mem_cons_self _ _)
    simp [List.takeWhile, hc, takeWhile_all (l := l) (fun x hx => h x (List.mem_cons_of_mem _ hx))]

/-- What `stoi` returns on some texts: the leading integer, whatever follows
it, and nothing for a text without leading digits or a value that is not an
`int`. -/
theorem stoi_samples :
    stoi "12".toList = some 12 ∧ stoi " +12x".toList = some 12 ∧
      stoi "-0".toList = some 0 ∧ stoi "007".toList = some 7 ∧
      stoi "".toList = none ∧ stoi "-".toList = none ∧ stoi "+-2".toList = none ∧
      stoi "x1".toList = none ∧ stoi "- 1".toList = none ∧
      stoi "2147483647".toList = some 2147483647 ∧ stoi "2147483648".toList = none ∧
      stoi "-2147483648".toList = some (-2147483648) ∧
      stoi "-2147483649".toList = none := by
  decide

/-- What `trim` returns on some texts. -/
theorem trim_samples :
    trim " 2d6\t".toList = "2d6".toList ∧ trim "\r\n".toList = [] ∧
      trim "a b".toList = "a b".toList ∧ trim "".toList = [] := by
  decide

/-- The value of `stoi` on a bare run of digits with a value in the range of `int`. -/
theorem stoi_digits {ds : List Char} (hne : ds ≠ []) (hd : ∀ c ∈ ds, is_digit c = true)
    (hr : (digits_value ds 0 : Int) ≤ INT_MAX) :
    stoi ds = some ((digits_value ds 0 : Nat) : Int) := by
  cases ds with
  | nil => exact absurd rfl hne
  | cons d ds' =>
    have hdd := hd d (List.mem_cons_self _ _)
    have hsp := is_digit_not_space hdd
    obtain ⟨hm, hp, -⟩ := is_digit_ne hdd
    have hmin : INT_MIN ≤ ((digits_value (d :: ds') 0 : Nat) : Int) := by
      unfold INT_MIN; omega
    unfold stoi
    simp only [List.dropWhile, hsp, strip_sign, if_neg hm, if_neg hp, takeWhile_all hd]
    simp [hmin, hr]

/-- The value of `stoi` on `+` followed by a run of digits. -/
theorem stoi_plus_digits {ds : List Char} (hne : ds ≠ []) (hd : ∀ c ∈ ds, is_digit c = true)
    (hr : (digits_value ds 0 : Int) ≤ INT_MAX) :
    stoi ('+' :: ds) = some ((digits_value ds 0 : Nat) : Int) := by
  have hsp : isspace '+' = false := by decide
  have hmin : INT_MIN ≤ ((digits_value ds 0 : Nat) : Int) := by
    unfold INT_MIN; omega
  have hne' : ¬ (ds.isEmpty = true) := by simpa using hne
  unfold stoi
  have hpm : ('+' : Char) ≠ '-' := by decide
  simp only [List.dropWhile, hsp, strip_sign, if_neg hpm, if_true, takeWhile_all hd]
  simp [hne, hmin, hr]

/-- The value of `stoi` on `-` followed by a run of digits. -/
theorem stoi_minus_digits {ds : List Char} (hne : ds ≠ []) (hd : ∀ c ∈ ds, is_digit c = true)
    (hr : INT_MIN ≤ -(digits_value ds 0 : Int)) :
    stoi ('-' :: ds) = some (-((digits_value ds 0 : Nat) : Int)) := by
  have hsp : isspace '-' = false := by decide
  have hmax : -((digits_value ds 0 : Nat) : Int) ≤ INT_MAX := by
    unfold INT_MAX; omega
  unfold stoi
  simp only [List.dropWhile, hsp, strip_sign, if_true, takeWhile_all hd]
  simp [hne, hmax, hr]

/-- The text of a non-negative `int` is a non-empty run of digits. -/
theorem int_to_string_nonneg {x : Int} (h : 0 ≤ x) : int_to_string x = nat_to_string x.toNat := by
  simp [int_to_string, not_lt.2 h]

theorem int_to_string_neg {x : Int} (h : x < 0) :
    int_to_string x = '-' :: nat_to_string x.natAbs := by
  simp [int_to_string, h]

/-- Reading back the text of a non-negative `int`. -/
theorem stoi_int_to_string_nonneg {x : Int} (h0 : 0 ≤ x) (h1 : x ≤ INT_MAX) :
    stoi (int_to_string x) = some x := by
  have hx : ((x.toNat : Nat) : Int) = x := Int.toNat_of_nonneg h0
  rw [int_to_string_nonneg h0,
    stoi_digits (nat_to_string_ne_nil _) (nat_to_string_digits _)
      (by rw [digits_value_nat_to_string, hx]; exact h1),
    digits_value_nat_to_string, hx]

/-- Reading back `+` followed by the text of a non-negative `int`. -/
theorem stoi_plus_int_to_string {x : Int} (h0 : 0 ≤ x) (h1 : x ≤ INT_MAX) :
    stoi ('+' :: int_to_string x) = some x := by
  have hx : ((x.toNat : Nat) : Int) = x := Int.toNat_of_nonneg h0
  rw [int_to_string_nonneg h0,
    stoi_plus_digits (nat_to_string_ne_nil _) (nat_to_string_digits _)
      (by rw [digits_value_nat_to_string, hx]; exact h1),
    digits_value_nat_to_string, hx]

/-- Reading back the text of a negative `int`. -/
theorem stoi_int_to_string_neg {x : Int} (h0 : x < 0) (h1 : INT_MIN ≤ x) :
    stoi (int_to_string x) = some x := by
  have hx : -((x.natAbs : Nat) : Int) = x := by omega
  rw [int_to_string_neg h0,
    stoi_minus_digits (nat_to_string_ne_nil _) (nat_to_string_digits _)
      (by rw [digits_value_nat_to_string, hx]; exact h1),
    digits_value_nat_to_string, hx]

/-! ## `trim` -/

theorem find_first_not_of_eq_none {chars : List Char} :
    ∀ {s : Str}, (∀ c ∈ s, c ∈ chars) → find_first_not_of s chars = none
  | [], _ => rfl
  | c :: cs, h => by
    have hc : c ∈ chars := h c (List.mem_cons_self _ _)
    have ih := find_first_not_of_eq_none (s := cs) (fun x hx => h x (List.mem_cons_of_mem _ hx))
    simp [find_first_not_of, hc, ih]

theorem find_first_not_of_append {chars : List Char} {c : Char} (hc : c ∉ chars) (r : Str) :
    ∀ {a : Str}, (∀ x ∈ a, x ∈ chars) → find_first_not_of (a ++ c :: r) chars = some a.length
  | [], _ => by simp [find_first_not_of, hc]
  | x :: a, h => by
    have hx : x ∈ chars := h x (List.mem_cons_self _ _)
    have ih := find_first_not_of_append hc r (a := a)
      (fun y hy => h y (List.mem_cons_of_mem _ hy))
    simp [find_first_not_of, hx, ih]

theorem find_last_not_of_eq_none {chars : List Char} :
    ∀ {s : Str}, (∀ c ∈ s, c ∈ chars) → find_last_not_of s chars = none
  | [], _ => rfl
  | c :: cs, h => by
    have hc : c ∈ chars := h c (List.mem_cons_self _ _)
    have ih := find_last_not_of_eq_none (s := cs) (fun x hx => h x (List.mem_cons_of_mem _ hx))
    simp [find_last_not_of, hc, ih]

theorem find_last_not_of_append {chars : List Char} {l : Char} (hl : l ∉ chars) {b : Str}
    (hb : ∀ x ∈ b, x ∈ chars) :
    ∀ (p : Str), find_last_not_of (p ++ l :: b) chars = some p.length
  | [] => by simp [find_last_not_of, find_last_not_of_eq_none hb, hl]
  | x :: p => by
    simp [find_last_not_of, find_last_not_of_append hl hb p]

/-- Where there is a first character outside `chars` there is a last one,
at the same index or further: in `trim` the length `end_position -
start_position + 1` does not wrap, and the search from the end cannot return
`npos` after the search from the start found a character. -/
theorem find_last_not_of_of_first {chars : List Char} :
    ∀ {s : Str} {i : Nat}, find_first_not_of s chars = some i →
      ∃ j, find_last_not_of s chars = some j ∧ i ≤ j
  | [], i, h => by simp [find_first_not_of] at h
  | c :: cs, i, h => by
    by_cases hc : c ∈ chars
    · simp only [find_first_not_of, if_pos hc] at h
      cases hf : find_first_not_of cs chars with
      | none => rw [hf] at h; simp at h
      | some k =>
        rw [hf] at h
        simp only [Option.some.injEq] at h
        obtain ⟨j, hj, hle⟩ := find_last_not_of_of_first hf
        exact ⟨j + 1, by simp [find_last_not_of, hj], by omega⟩
    · simp only [find_first_not_of, if_neg hc, Option.some.injEq] at h
      cases hl : find_last_not_of cs chars with
      | none => exact ⟨0, by simp [find_last_not_of, hl, hc], by omega⟩
      | some j => exact ⟨j + 1, by simp [find_last_not_of, hl], by omega⟩

/-- The result of `trim` on a text that is `t` between two runs of trimmed
characters, when `t` neither starts nor ends with a trimmed character. -/
theorem trim_decomp (a t b : Str) (ha : ∀ c ∈ a, c ∈ trim_chars) (hb : ∀ c ∈ b, c ∈ trim_chars)
    (ht : t ≠ []) (hh : t.head ht ∉ trim_chars) (hl : t.getLast ht ∉ trim_chars) :
    trim (a ++ t ++ b) = t := by
  have h1 : find_first_not_of (a ++ t ++ b) trim_chars = some a.length := by
    cases t with
    | nil => exact absurd rfl ht
    | cons c t' =>
      simp only [List.head_cons] at hh
      rw [List.append_assoc, List.cons_append]
      exact find_first_not_of_append hh _ ha
  have h2 : find_last_not_of (a ++ t ++ b) trim_chars = some (a.length + (t.length - 1)) := by
    have hsplit := List.dropLast_append_getLast ht
    have e : a ++ t ++ b = (a ++ t.dropLast) ++ t.getLast ht :: b := by
      conv_lhs => rw [← hsplit]
      simp
    rw [e, find_last_not_of_append hl hb]
    simp
  have hlen : 0 < t.length := List.length_pos.2 ht
  unfold trim
  simp only [h1, h2, substr]
  have e2 : a.length + (t.length - 1) - a.length + 1 = t.length := by omega
  rw [e2, List.append_assoc, List.drop_left, List.take_left]

/-- A text that contains no trimmed character is left as it is. -/
theorem trim_eq_self {t : Str} (h : ∀ c ∈ t, c ∉ trim_chars) : trim t = t := by
  by_cases ht : t = []
  · subst ht; rfl
  · have := trim_decomp [] t [] (by simp) (by simp) ht (h _ (List.head_mem ht))
      (h _ (List.getLast_mem ht))
    simpa using this

/-- A text made of trimmed characters only is blank. -/
theorem trim_eq_nil {s : Str} (h : ∀ c ∈ s, c ∈ trim_chars) : trim s = [] := by
  unfold trim
  rw [find_first_not_of_eq_none h]

/-! ## Parsing the canonical text -/

theorem int_to_string_ne_nil (x : Int) : int_to_string x ≠ [] := by
  by_cases h : x < 0
  · rw [int_to_string_neg h]; simp
  · rw [int_to_string_nonneg (not_lt.1 h)]; exact nat_to_string_ne_nil _

theorem int_to_string_digits {x : Int} (h : 0 ≤ x) : ∀ c ∈ int_to_string x, is_digit c = true := by
  rw [int_to_string_nonneg h]; exact nat_to_string_digits _

/-- The characters of a modifier's text: digits, `+` and `-`. -/
theorem modifier_text_chars (m : Int) :
    ∀ c ∈ modifier_text m, is_digit c = true ∨ c = '+' ∨ c = '-' := by
  intro c hc
  unfold modifier_text at hc
  split_ifs at hc with h1 h2
  · rcases List.mem_cons.1 hc with rfl | hc
    · exact Or.inr (Or.inl rfl)
    · exact Or.inl (int_to_string_digits (le_of_lt h1) c hc)
  · rw [int_to_string_neg h2] at hc
    rcases List.mem_cons.1 hc with rfl | hc
    · exact Or.inr (Or.inr rfl)
    · exact Or.inl (nat_to_string_digits _ c hc)
  · simp at hc

/-- The characters of a group's text when `count` and `sides` are not
negative: digits, `d`, `+` and `-`. -/
theorem render_group_chars {g : DieGroup} (hc : 0 ≤ g.count) (hs : 0 ≤ g.sides) :
    ∀ c ∈ render_group g, is_digit c = true ∨ c = 'd' ∨ c = '+' ∨ c = '-' := by
  intro c hm
  unfold render_group at hm
  rcases List.mem_append.1 hm with h | h
  · exact Or.inl (int_to_string_digits hc c h)
  · rcases List.mem_cons.1 h with rfl | h
    · exact Or.inr (Or.inl rfl)
    · rcases List.mem_append.1 h with h | h
      · exact Or.inl (int_to_string_digits hs c h)
      · rcases modifier_text_chars _ c h with h | h | h
        · exact Or.inl h
        · exact Or.inr (Or.inr (Or.inl h))
        · exact Or.inr (Or.inr (Or.inr h))

theorem render_group_no_trim {g : DieGroup} (hc : 0 ≤ g.count) (hs : 0 ≤ g.sides) :
    ∀ c ∈ render_group g, c ∉ trim_chars := by
  intro c hm
  rcases render_group_chars hc hs c hm with h | rfl | rfl | rfl
  · exact (is_digit_ne h).2.2.2.2.2
  · decide
  · decide
  · decide

theorem render_group_no_comma {g : DieGroup} (hc : 0 ≤ g.count) (hs : 0 ≤ g.sides) :
    ',' ∉ render_group g := by
  intro hm
  rcases render_group_chars hc hs _ hm with h | h | h | h
  · exact (is_digit_ne h).2.2.2.2.1 rfl
  · exact absurd h (by decide)
  · exact absurd h (by decide)
  · exact absurd h (by decide)

theorem render_group_ne_nil (g : DieGroup) : render_group g ≠ [] := by
  unfold render_group
  simp

/-- How `parse_token` splits the rest of a canonical term and reads the
modifier. -/
theorem modifier_text_split {sides modifier : Int} (hs : 0 ≤ sides) (hm : is_int modifier) :
    (match find_first_of (int_to_string sides ++ modifier_text modifier) ['+', '-'] with
      | none => (int_to_string sides ++ modifier_text modifier, ([] : Str))
      | some modifier_position =>
        (substr (int_to_string sides ++ modifier_text modifier) 0 modifier_position,
         substr_from (int_to_string sides ++ modifier_text modifier) modifier_position))
      = (int_to_string sides, modifier_text modifier) ∧
    (modifier_text modifier = [] ∧ modifier = 0 ∨
     modifier_text modifier ≠ [] ∧ stoi (modifier_text modifier) = some modifier) := by
  have hno : ∀ x ∈ int_to_string sides, x ∉ ['+', '-'] := by
    intro x hx hmem
    have hd := is_digit_ne (int_to_string_digits hs x hx)
    simp only [List.mem_cons, List.mem_singleton, List.not_mem_nil, or_false] at hmem
    rcases hmem with h | h
    · exact hd.2.1 h
    · exact hd.1 h
  obtain ⟨hm1, hm2⟩ := hm
  unfold modifier_text
  split_ifs with h1 h2
  · rw [find_first_of_append (by simp) _ hno]
    refine ⟨?_, Or.inr ⟨by simp, stoi_plus_int_to_string (le_of_lt h1) hm2⟩⟩
    simp [substr, substr_from]
  · rw [int_to_string_neg h2, find_first_of_append (by simp) _ hno]
    refine ⟨?_, Or.inr ⟨by simp, ?_⟩⟩
    · simp [substr, substr_from]
    · rw [← int_to_string_neg h2]
      exact stoi_int_to_string_neg h2 hm1
  · rw [List.append_nil, find_first_of_eq_none hno]
    exact ⟨rfl, Or.inl ⟨rfl, by omega⟩⟩

/-- Reading back: `parse_token` reads the canonical text of a valid group back as that
group, whatever `output_group` held. -/
theorem parse_token_render_group {g : DieGroup} (hv : valid_group g) (g0 : DieGroup) :
    parse_token (render_group g) g0 = (true, g) := by
  obtain ⟨hc0, hs1, ⟨-, hc2⟩, ⟨-, hs2⟩, hm⟩ := hv
  have hs0 : 0 ≤ g.sides := by omega
  have htrim : trim (render_group g) = render_group g :=
    trim_eq_self (render_group_no_trim hc0 hs0)
  have hnod : ∀ x ∈ int_to_string g.count, x ∉ ['d', 'D'] := by
    intro x hx hmem
    have hd := is_digit_ne (int_to_string_digits hc0 x hx)
    simp only [List.mem_cons, List.mem_singleton, List.not_mem_nil, or_false] at hmem
    rcases hmem with h | h
    · exact hd.2.2.1 h
    · exact hd.2.2.2.1 h
  have hfind : find_first_of (render_group g) ['d', 'D'] = some (int_to_string g.count).length := by
    unfold render_group
    exact find_first_of_append (by simp) _ hnod
  have hcount : substr (render_group g) 0 (int_to_string g.count).length = int_to_string g.count := by
    simp [substr, render_group]
  have hrem : substr_from (render_group g) ((int_to_string g.count).length + 1)
      = int_to_string g.sides ++ modifier_text g.modifier := by
    simp [substr_from, render_group]
  obtain ⟨hsplit, hmod⟩ := modifier_text_split hs0 hm
  have hcne : (int_to_string g.count).isEmpty = false := by
    simpa using int_to_string_ne_nil g.count
  have hsne : (int_to_string g.sides).isEmpty = false := by
    simpa using int_to_string_ne_nil g.sides
  have hrne : (render_group g).isEmpty = false := by
    simpa using render_group_ne_nil g
  have hcnt : ¬ (g.count < 0) := by omega
  have hsd : ¬ (g.sides ≤ 0) := by omega
  unfold parse_token
  simp only [htrim, hrne, hfind, hcount, hrem, hcne, hsplit, hsne,
    stoi_int_to_string_nonneg hc0 hc2, stoi_int_to_string_nonneg hs0 hs2, hcnt, hsd]
  rcases hmod with ⟨he, h0⟩ | ⟨hne, hst⟩
  · simp [he, ← h0]
  · have hmne : (modifier_text g.modifier).isEmpty = false := by simpa using hne
    simp [hmne, hst]

/-! ## What a successful `parse_token` tells -/

/-- A value `stoi` returns is a value of type `int`. -/
theorem stoi_is_int {s : Str} {v : Int} (h : stoi s = some v) : is_int v := by
  unfold stoi at h
  simp only at h
  generalize strip_sign (s.dropWhile isspace) = signed at h
  by_cases h1 : (signed.2.takeWhile is_digit).isEmpty = true
  · rw [if_pos h1] at h; exact absurd h (by simp)
  · rw [if_neg h1] at h
    by_cases h2 : INT_MIN ≤ (if signed.1 = true
        then -((digits_value (signed.2.takeWhile is_digit) 0 : Nat) : Int)
        else ((digits_value (signed.2.takeWhile is_digit) 0 : Nat) : Int)) ∧
        (if signed.1 = true
        then -((digits_value (signed.2.takeWhile is_digit) 0 : Nat) : Int)
        else ((digits_value (signed.2.takeWhile is_digit) 0 : Nat) : Int)) ≤ INT_MAX
    · rw [if_pos h2] at h
      simp only [Option.some.injEq] at h
      rw [← h]
      exact h2
    · rw [if_neg h2] at h; exact absurd h (by simp)

/-- The function `parse_token` as the sequence of its blocks. -/
theorem parse_token_eq (token : Str) (g0 : DieGroup) :
    parse_token token g0 =
      if (trim token).isEmpty then (false, g0)
      else
        match find_first_of (trim token) ['d', 'D'] with
        | none => (false, g0)
        | some dice_position =>
          if !(parse_count g0 (substr (trim token) 0 dice_position)).1 then
            (false, (parse_count g0 (substr (trim token) 0 dice_position)).2)
          else
            parse_sides_modifier (parse_count g0 (substr (trim token) 0 dice_position)).2
              (split_modifier (substr_from (trim token) (dice_position + 1))).1
              (split_modifier (substr_from (trim token) (dice_position + 1))).2 := rfl

theorem parse_count_true {g0 g1 : DieGroup} {cs : Str} (h : parse_count g0 cs = (true, g1)) :
    g1.sides = g0.sides ∧ g1.modifier = g0.modifier ∧
      (cs = [] ∧ g1.count = 1 ∨ cs ≠ [] ∧ stoi cs = some g1.count ∧ 0 ≤ g1.count) := by
  unfold parse_count at h
  by_cases hce : cs = []
  · subst hce
    simp only [List.isEmpty_nil, if_true, Prod.mk.injEq, true_and] at h
    subst h
    exact ⟨rfl, rfl, Or.inl ⟨rfl, rfl⟩⟩
  · have hce' : cs.isEmpty = false := by simpa using hce
    simp only [hce', Bool.false_eq_true, if_false] at h
    cases hsc : stoi cs with
    | none => rw [hsc] at h; exact absurd (congrArg Prod.fst h) (by simp)
    | some v =>
      rw [hsc] at h
      simp only at h
      by_cases hv : v < 0
      · rw [if_pos hv] at h; exact absurd (congrArg Prod.fst h) (by simp)
      · rw [if_neg hv] at h
        simp only [Prod.mk.injEq, true_and] at h
        subst h
        exact ⟨rfl, rfl, Or.inr ⟨hce, rfl, not_lt.1 hv⟩⟩

theorem parse_sides_modifier_true {g1 g : DieGroup} {ss ms : Str}
    (h : parse_sides_modifier g1 ss ms = (true, g)) :
    g.count = g1.count ∧ ss ≠ [] ∧ stoi ss = some g.sides ∧ 0 < g.sides ∧
      (ms = [] ∧ g.modifier = 0 ∨ ms ≠ [] ∧ stoi ms = some g.modifier) := by
  unfold parse_sides_modifier at h
  by_cases hse : ss.isEmpty = true
  · rw [if_pos hse] at h; exact absurd (congrArg Prod.fst h) (by simp)
  rw [if_neg hse] at h
  have hss : ss ≠ [] := by simpa using hse
  cases hst : stoi ss with
  | none => rw [hst] at h; exact absurd (congrArg Prod.fst h) (by simp)
  | some s =>
    rw [hst] at h
    simp only at h
    by_cases hs0 : s ≤ 0
    · rw [if_pos hs0] at h; exact absurd (congrArg Prod.fst h) (by simp)
    rw [if_neg hs0] at h
    by_cases hme : ms = []
    · subst hme
      simp only [List.isEmpty_nil, Bool.not_true, Bool.false_eq_true, if_false, Prod.mk.injEq,
        true_and] at h
      subst h
      exact ⟨rfl, hss, rfl, not_le.1 hs0, Or.inl ⟨rfl, rfl⟩⟩
    · have hme' : ms.isEmpty = false := by simpa using hme
      simp only [hme', Bool.not_false, if_true] at h
      cases hsm : stoi ms with
      | none => rw [hsm] at h; exact absurd (congrArg Prod.fst h) (by simp)
      | some m =>
        rw [hsm] at h
        simp only [Prod.mk.injEq, true_and] at h
        subst h
        exact ⟨rfl, hss, rfl, not_le.1 hs0, Or.inr ⟨hme, rfl⟩⟩

/-- The two texts `split_modifier` returns: the first has no sign, the second
is empty or starts at a sign, and together they are the text that was split. -/
theorem split_modifier_spec (rem : Str) :
    rem = (split_modifier rem).1 ++ (split_modifier rem).2 ∧
      (∀ c ∈ (split_modifier rem).1, c ∉ ['+', '-']) ∧
      ((split_modifier rem).2 = [] ∨
        ∃ c r, (split_modifier rem).2 = c :: r ∧ c ∈ ['+', '-']) := by
  unfold split_modifier
  cases hm : find_first_of rem ['+', '-'] with
  | none => exact ⟨by simp, find_first_of_none_iff.1 hm, Or.inl rfl⟩
  | some j =>
    obtain ⟨c, hc, hs2, hno2, hlen⟩ := find_first_of_some hm
    have e : rem.drop j = c :: rem.drop (j + 1) := by
      conv_lhs => rw [hs2]
      rw [List.drop_left' hlen]
    simp only [substr, substr_from, List.drop_zero]
    exact ⟨by simp, hno2, Or.inr ⟨c, _, e, hc⟩⟩

/-- The parts of a token `parse_token` accepts: the trimmed token is a
count text without `d`/`D`, a separator, a sides text without sign and a
modifier text that is empty or starts at a sign; each number is what `stoi`
reads in its text. -/
theorem parse_token_true_inv {token : Str} {g0 g : DieGroup}
    (h : parse_token token g0 = (true, g)) :
    ∃ (cs : Str) (sep : Char) (ss ms : Str),
      trim token = cs ++ sep :: (ss ++ ms) ∧ sep ∈ ['d', 'D'] ∧
      (∀ c ∈ cs, c ∉ ['d', 'D']) ∧ (∀ c ∈ ss, c ∉ ['+', '-']) ∧
      (ms = [] ∨ ∃ c r, ms = c :: r ∧ c ∈ ['+', '-']) ∧
      (cs = [] ∧ g.count = 1 ∨ cs ≠ [] ∧ stoi cs = some g.count ∧ 0 ≤ g.count) ∧
      ss ≠ [] ∧ stoi ss = some g.sides ∧ 0 < g.sides ∧
      (ms = [] ∧ g.modifier = 0 ∨ ms ≠ [] ∧ stoi ms = some g.modifier) := by
  rw [parse_token_eq] at h
  by_cases hempty : (trim token).isEmpty = true
  · rw [if_pos hempty] at h; exact absurd (congrArg Prod.fst h) (by simp)
  rw [if_neg hempty] at h
  cases hf : find_first_of (trim token) ['d', 'D'] with
  | none => rw [hf] at h; exact absurd (congrArg Prod.fst h) (by simp)
  | some i =>
    rw [hf] at h
    simp only at h
    obtain ⟨sep, hsep, hs, hno, -⟩ := find_first_of_some hf
    have hcs : substr (trim token) 0 i = (trim token).take i := by simp [substr]
    have hrem : substr_from (trim token) (i + 1) = (trim token).drop (i + 1) := rfl
    rw [hcs, hrem] at h
    cases hpc : parse_count g0 ((trim token).take i) with
    | mk b g1 =>
      rw [hpc] at h
      cases b with
      | false => exact absurd (congrArg Prod.fst h) (by simp)
      | true =>
        simp only [Bool.not_true, Bool.false_eq_true, if_false] at h
        obtain ⟨-, -, hcount⟩ := parse_count_true hpc
        obtain ⟨hgc, hss, hst, hpos, hmod⟩ := parse_sides_modifier_true h
        obtain ⟨hsplit, hnoss, hms⟩ := split_modifier_spec ((trim token).drop (i + 1))
        refine ⟨_, sep, _, _, ?_, hsep, hno, hnoss, hms, ?_, hss, hst, hpos, hmod⟩
        · rw [← hsplit]; exact hs
        · rw [hgc]; exact hcount

/-- A group `parse_token` returns satisfies the parser's constraints. -/
theorem parse_token_valid {token : Str} {g0 g : DieGroup}
    (h : parse_token token g0 = (true, g)) : valid_group g := by
  obtain ⟨cs, sep, ss, ms, -, -, -, -, -, hc, -, hs, hpos, hm⟩ := parse_token_true_inv h
  refine ⟨?_, by omega, ?_, stoi_is_int hs, ?_⟩
  · rcases hc with ⟨-, h1⟩ | ⟨-, -, h0⟩
    · omega
    · exact h0
  · rcases hc with ⟨-, h1⟩ | ⟨-, h1, -⟩
    · rw [h1]; decide
    · exact stoi_is_int h1
  · rcases hm with ⟨-, h1⟩ | ⟨-, h1⟩
    · rw [h1]; decide
    · exact stoi_is_int h1

/-- Whether `parse_token` accepts a token does not depend on what
`output_group` held, nor does the group it returns when it accepts. -/
theorem parse_token_output_irrelevant (token : Str) (g0 g0' : DieGroup) :
    (parse_token token g0).1 = (parse_token token g0').1 ∧
      ((parse_token token g0).1 = true → (parse_token token g0).2 = (parse_token token g0').2) := by
  rw [parse_token_eq, parse_token_eq]
  by_cases hempty : (trim token).isEmpty = true
  · simp [hempty]
  simp only [hempty, if_false]
  cases hf : find_first_of (trim token) ['d', 'D'] with
  | none => simp
  | some i =>
    simp only
    generalize substr (trim token) 0 i = cs
    generalize (split_modifier (substr_from (trim token) (i + 1))).1 = ss
    generalize (split_modifier (substr_from (trim token) (i + 1))).2 = ms
    unfold parse_count parse_sides_modifier
    by_cases hce : cs.isEmpty = true
    · simp only [hce, if_true, Bool.not_true, Bool.false_eq_true, if_false]
      by_cases hse : ss.isEmpty = true
      · simp [hse]
      simp only [hse, if_false]
      cases stoi ss with
      | none => simp
      | some s =>
        simp only
        by_cases hs0 : s ≤ 0
        · simp [hs0]
        simp only [hs0, if_false]
        by_cases hme : ms.isEmpty = true
        · simp [hme]
        simp only [hme, Bool.not_false, if_true]
        cases stoi ms <;> simp
    · simp only [hce, if_false]
      cases stoi cs with
      | none => simp
      | some v =>
        simp only
        by_cases hv : v < 0
        · simp [hv]
        simp only [hv, if_false, Bool.not_true, Bool.false_eq_true]
        by_cases hse : ss.isEmpty = true
        · simp [hse]
        simp only [hse, if_false]
        cases stoi ss with
        | none => simp
        | some s =>
          simp only
          by_cases hs0 : s ≤ 0
          · simp [hs0]
          simp only [hs0, if_false]
          by_cases hme : ms.isEmpty = true
          · simp [hme]
          simp only [hme, Bool.not_false, if_true]
          cases stoi ms <;> simp

/-! ## `groups_to_string` and the canonical text -/

theorem modifier_append (s2 : Str) (m : Int) :
    (if m > 0 then s2 ++ ['+'] ++ int_to_string m
      else if m < 0 then s2 ++ int_to_string m else s2) = s2 ++ modifier_text m := by
  unfold modifier_text
  split_ifs <;> simp

theorem groups_to_string_loop_rest :
    ∀ (groups : List DieGroup) (stream : Str),
      groups_to_string_loop groups false stream = stream ++ render_rest groups
  | [], stream => by simp [groups_to_string_loop, render_rest]
  | g :: gs, stream => by
    simp only [groups_to_string_loop, Bool.not_false, if_true]
    rw [modifier_append, groups_to_string_loop_rest gs]
    simp [render_rest, render_group]

/-- The text `groups_to_string` returns is the texts of the groups joined
with commas. -/
theorem groups_to_string_eq (groups : List DieGroup) :
    groups_to_string groups = render_groups groups := by
  cases groups with
  | nil => rfl
  | cons g gs =>
    simp only [groups_to_string, groups_to_string_loop, Bool.not_true, Bool.false_eq_true,
      if_false]
    rw [modifier_append, groups_to_string_loop_rest gs]
    simp [render_groups, render_group]

/-- The segments of the canonical text of valid groups are the texts of the
groups. -/
theorem segments_render :
    ∀ (gs : List DieGroup) (g : DieGroup), (∀ x ∈ g :: gs, valid_group x) →
      segments (render_group g ++ render_rest gs) = (g :: gs).map render_group
  | [], g, h => by
    have hv := h g (List.mem_cons_self _ _)
    have hnc := render_group_no_comma hv.1 (by have := hv.2.1; omega)
    simp [render_rest, segments_no_comma hnc]
  | g' :: gs, g, h => by
    have hv := h g (List.mem_cons_self _ _)
    have hnc := render_group_no_comma hv.1 (by have := hv.2.1; omega)
    have ih := segments_render gs g' (fun x hx => h x (List.mem_cons_of_mem _ hx))
    simp only [render_rest]
    rw [segments_append_comma _ hnc, ih]
    simp

/-- The loop of `parse_specification` pushes every valid group whose
canonical text it is given. -/
theorem process_segments_render :
    ∀ (gs out : List DieGroup), (∀ x ∈ gs, valid_group x) →
      process_segments (gs.map render_group) out = (!(out ++ gs).isEmpty, out ++ gs)
  | [], out, _ => by simp [process_segments]
  | g :: gs, out, h => by
    have hv := h g (List.mem_cons_self _ _)
    have htrim : trim (render_group g) = render_group g :=
      trim_eq_self (render_group_no_trim hv.1 (by have := hv.2.1; omega))
    have hne : (render_group g).isEmpty = false := by simpa using render_group_ne_nil g
    have ih := process_segments_render gs (out ++ [g])
      (fun x hx => h x (List.mem_cons_of_mem _ hx))
    simp only [List.map_cons, process_segments, htrim, hne, parse_token_render_group hv,
      Bool.false_eq_true, if_false, Bool.not_true]
    rw [ih]
    simp

/-- Parsing the text written for a non-empty sequence of valid groups gives
the sequence back. -/
theorem parse_specification_groups_to_string {groups : List DieGroup} (hne : groups ≠ [])
    (hv : ∀ g ∈ groups, valid_group g) (prior : List DieGroup) :
    parse_specification (groups_to_string groups) prior = (true, groups) := by
  rw [parse_specification_eq, groups_to_string_eq]
  cases groups with
  | nil => exact absurd rfl hne
  | cons g gs =>
    rw [render_groups, segments_render gs g hv, process_segments_render _ _ hv]
    simp

/-- What the loop of `parse_specification` leaves when it returns `true`:
the groups it was entered with followed by valid groups, not empty. -/
theorem process_segments_true :
    ∀ (segs : List Str) (out G : List DieGroup), process_segments segs out = (true, G) →
      G ≠ [] ∧ ∃ new, G = out ++ new ∧ ∀ g ∈ new, valid_group g
  | [], out, G, h => by
    simp only [process_segments, Prod.mk.injEq] at h
    obtain ⟨h1, h2⟩ := h
    subst h2
    refine ⟨by simpa using h1, [], by simp, by simp⟩
  | seg :: segs, out, G, h => by
    rw [process_segments] at h
    by_cases hb : (trim seg).isEmpty = true
    · rw [if_pos hb] at h
      exact process_segments_true segs out G h
    · rw [if_neg hb] at h
      simp only at h
      cases hp : parse_token seg DieGroup.default with
      | mk b g =>
        rw [hp] at h
        cases b with
        | false => exact absurd (congrArg Prod.fst h) (by simp)
        | true =>
          simp only [Bool.not_true, Bool.false_eq_true, if_false] at h
          obtain ⟨hG, new, hnew, hval⟩ := process_segments_true segs _ G h
          refine ⟨hG, g :: new, by rw [hnew]; simp, ?_⟩
          intro x hx
          rcases List.mem_cons.1 hx with rfl | hx
          · exact parse_token_valid hp
          · exact hval x hx

/-- The groups of a successful `parse_specification` are valid and there is
at least one. -/
theorem parse_specification_true {spec : Str} {prior G : List DieGroup}
    (h : parse_specification spec prior = (true, G)) :
    G ≠ [] ∧ ∀ g ∈ G, valid_group g := by
  rw [parse_specification_eq] at h
  obtain ⟨hG, new, hnew, hval⟩ := process_segments_true _ _ _ h
  simp only [List.nil_append] at hnew
  subst hnew
  exact ⟨hG, hval⟩

/-- The incoming content of `output_groups` is cleared: it has no effect. -/
theorem parse_specification_prior (spec : Str) (prior : List DieGroup) :
    parse_specification spec prior = parse_specification spec [] := rfl

/-! ## Failure of `parse_specification` -/

theorem trim_subset (s : Str) : ∀ c ∈ trim s, c ∈ s := by
  intro c hc
  unfold trim at hc
  cases h1 : find_first_not_of s trim_chars with
  | none => rw [h1] at hc; simp at hc
  | some i =>
    rw [h1] at hc
    cases h2 : find_last_not_of s trim_chars with
    | none =>
      rw [h2] at hc
      exact List.mem_of_mem_drop hc
    | some j =>
      rw [h2] at hc
      exact List.mem_of_mem_drop (List.mem_of_mem_take hc)

theorem segments_subset : ∀ (s : Str), ∀ seg ∈ segments s, ∀ c ∈ seg, c ∈ s
  | [], seg, hseg, c, hc => by
    simp only [segments, List.mem_singleton] at hseg
    subst hseg
    exact hc
  | x :: xs, seg, hseg, c, hc => by
    have ih := segments_subset xs
    by_cases hx : x = ','
    · simp only [segments, hx, if_true, List.mem_cons] at hseg
      rcases hseg with rfl | hseg
      · simp at hc
      · exact List.mem_cons_of_mem _ (ih seg hseg c hc)
    · simp only [segments, hx, if_false] at hseg
      cases hs : segments xs with
      | nil =>
        rw [hs] at hseg
        simp only [List.mem_singleton] at hseg
        subst hseg
        simp only [List.mem_singleton] at hc
        subst hc
        exact List.mem_cons_self _ _
      | cons seg' segs =>
        rw [hs] at hseg ih
        simp only [List.mem_cons] at hseg
        rcases hseg with rfl | hseg
        · rcases List.mem_cons.1 hc with rfl | hc
          · exact List.mem_cons_self _ _
          · exact List.mem_cons_of_mem _ (ih seg' (List.mem_cons_self _ _) c hc)
        · exact List.mem_cons_of_mem _ (ih seg (List.mem_cons_of_mem _ hseg) c hc)

/-- A token without `d` and `D` is rejected. -/
theorem parse_token_no_separator {token : Str} (h : ∀ c ∈ token, c ∉ ['d', 'D'])
    (g0 : DieGroup) : (parse_token token g0).1 = false := by
  have hf : find_first_of (trim token) ['d', 'D'] = none :=
    find_first_of_eq_none (fun c hc => h c (trim_subset token c hc))
  rw [parse_token_eq, hf]
  by_cases he : (trim token).isEmpty = true <;> simp [he]

/-- With no `d` and no `D` in any segment the loop pushes nothing and
fails. -/
theorem process_segments_no_separator :
    ∀ (segs : List Str), (∀ seg ∈ segs, ∀ c ∈ seg, c ∉ ['d', 'D']) →
      process_segments segs [] = (false, [])
  | [], _ => rfl
  | seg :: segs, h => by
    have ih := process_segments_no_separator segs (fun x hx => h x (List.mem_cons_of_mem _ hx))
    have hp := parse_token_no_separator (h seg (List.mem_cons_self _ _)) DieGroup.default
    rw [process_segments]
    by_cases hb : (trim seg).isEmpty = true
    · rw [if_pos hb]; exact ih
    · rw [if_neg hb]; simp [hp]

/-- A non-blank rejected segment makes the loop fail, wherever it is. -/
theorem process_segments_rejected {seg : Str} (hb : trim seg ≠ [])
    (hr : (parse_token seg DieGroup.default).1 = false) :
    ∀ (segs : List Str) (out : List DieGroup), seg ∈ segs →
      (process_segments segs out).1 = false
  | [], _, hm => by simp at hm
  | x :: segs, out, hm => by
    rw [process_segments]
    by_cases hx : (trim x).isEmpty = true
    · rw [if_pos hx]
      rcases List.mem_cons.1 hm with rfl | hm
      · exact absurd (by simpa using hx) hb
      · exact process_segments_rejected hb hr segs out hm
    · rw [if_neg hx]
      simp only
      by_cases hp : (parse_token x DieGroup.default).1 = true
      · simp only [hp, Bool.not_true, Bool.false_eq_true, if_false]
        rcases List.mem_cons.1 hm with rfl | hm
        · rw [hr] at hp; exact absurd hp (by simp)
        · exact process_segments_rejected hb hr segs _ hm
      · simp [hp]

/-- What the loop leaves when it returns `false`. Either it was entered with
no group and every segment is blank, or a non-blank segment is rejected, the
segments before it are blank or accepted, and what is left is the groups at
entry followed by the groups of those accepted segments. -/
theorem process_segments_false :
    ∀ (segs : List Str) (out G : List DieGroup), process_segments segs out = (false, G) →
      (out = [] ∧ G = [] ∧ ∀ seg ∈ segs, trim seg = []) ∨
      ∃ pre seg post, segs = pre ++ seg :: post ∧
        (∀ p ∈ pre, trim p = [] ∨ (parse_token p DieGroup.default).1 = true) ∧
        trim seg ≠ [] ∧ (parse_token seg DieGroup.default).1 = false ∧
        G = out ++ accepted_groups pre
  | [], out, G, h => by
    simp only [process_segments, Prod.mk.injEq] at h
    obtain ⟨h1, h2⟩ := h
    subst h2
    have : out = [] := by simpa using h1
    exact Or.inl ⟨this, this, by simp⟩
  | x :: segs, out, G, h => by
    rw [process_segments] at h
    by_cases hx : (trim x).isEmpty = true
    · rw [if_pos hx] at h
      have hx' : trim x = [] := by simpa using hx
      rcases process_segments_false segs out G h with ⟨h1, h2, h3⟩ | ⟨pre, seg, post, e, hpre, hb, hr, hG⟩
      · refine Or.inl ⟨h1, h2, ?_⟩
        intro seg hseg
        rcases List.mem_cons.1 hseg with rfl | hseg
        · exact hx'
        · exact h3 seg hseg
      · refine Or.inr ⟨x :: pre, seg, post, by rw [e]; rfl, ?_, hb, hr, ?_⟩
        · intro p hp
          rcases List.mem_cons.1 hp with rfl | hp
          · exact Or.inl hx'
          · exact hpre p hp
        · rw [hG]
          simp [accepted_groups, List.filter_cons, hx]
    · rw [if_neg hx] at h
      simp only at h
      have hx' : trim x ≠ [] := by simpa using hx
      by_cases hp : (parse_token x DieGroup.default).1 = true
      · simp only [hp, Bool.not_true, Bool.false_eq_true, if_false] at h
        rcases process_segments_false segs _ G h with ⟨h1, -, -⟩ | ⟨pre, seg, post, e, hpre, hb, hr, hG⟩
        · simp at h1
        · refine Or.inr ⟨x :: pre, seg, post, by rw [e]; rfl, ?_, hb, hr, ?_⟩
          · intro p hp'
            rcases List.mem_cons.1 hp' with rfl | hp'
            · exact Or.inr hp
            · exact hpre p hp'
          · rw [hG]
            simp [accepted_groups, List.filter_cons, hx]
      · have hp' : (parse_token x DieGroup.default).1 = false := by simpa using hp
        simp only [hp', Bool.not_false, if_true, Prod.mk.injEq, true_and] at h
        refine Or.inr ⟨[], x, segs, rfl, by simp, hx', hp', ?_⟩
        simp [accepted_groups, h]

/-! ## What `stoi` accepts -/

theorem dropWhile_head_false {p : Char → Bool} :
    ∀ (l : List Char) (c : Char) (r : List Char), l.dropWhile p = c :: r → p c = false
  | [], c, r, h => by simp at h
  | x :: l, c, r, h => by
    by_cases hx : p x = true
    · rw [List.dropWhile_cons_of_pos hx] at h
      exact dropWhile_head_false l c r h
    · rw [List.dropWhile_cons_of_neg hx] at h
      simp only [List.cons.injEq] at h
      rw [← h.1]
      simpa using hx

theorem takeWhile_true {p : Char → Bool} :
    ∀ (l : List Char), ∀ c ∈ l.takeWhile p, p c = true
  | [], c, h => by simp at h
  | x :: l, c, h => by
    by_cases hx : p x = true
    · rw [List.takeWhile_cons_of_pos hx] at h
      rcases List.mem_cons.1 h with rfl | h
      · exact hx
      · exact takeWhile_true l c h
    · rw [List.takeWhile_cons_of_neg hx] at h
      simp at h

/-- The sign that `strip_sign` removes. -/
theorem strip_sign_spec (u : Str) :
    ∃ sg : Str, u = sg ++ (strip_sign u).2 ∧
      (sg = [] ∧ (strip_sign u).1 = false ∨ sg = ['+'] ∧ (strip_sign u).1 = false ∨
        sg = ['-'] ∧ (strip_sign u).1 = true) := by
  cases u with
  | nil => exact ⟨[], rfl, Or.inl ⟨rfl, rfl⟩⟩
  | cons c r =>
    by_cases hm : c = '-'
    · subst hm
      exact ⟨['-'], by simp [strip_sign], Or.inr (Or.inr ⟨rfl, by simp [strip_sign]⟩)⟩
    · by_cases hp : c = '+'
      · subst hp
        exact ⟨['+'], by simp [strip_sign], Or.inr (Or.inl ⟨rfl, by simp [strip_sign]⟩)⟩
      · exact ⟨[], by simp [strip_sign, hm, hp], Or.inl ⟨rfl, by simp [strip_sign, hm, hp]⟩⟩

/-- What `stoi` returns, in terms of the sign and the digits it reads. -/
theorem stoi_some {s : Str} {v : Int} (h : stoi s = some v) :
    (strip_sign (s.dropWhile isspace)).2.takeWhile is_digit ≠ [] ∧
      v = (if (strip_sign (s.dropWhile isspace)).1 = true
        then -((digits_value ((strip_sign (s.dropWhile isspace)).2.takeWhile is_digit) 0
                : Nat) : Int)
        else ((digits_value ((strip_sign (s.dropWhile isspace)).2.takeWhile is_digit) 0
                : Nat) : Int)) := by
  unfold stoi at h
  simp only at h
  generalize strip_sign (s.dropWhile isspace) = signed at h ⊢
  by_cases h1 : (signed.2.takeWhile is_digit).isEmpty = true
  · rw [if_pos h1] at h; exact absurd h (by simp)
  · rw [if_neg h1] at h
    refine ⟨by simpa using h1, ?_⟩
    by_cases h2 : INT_MIN ≤ (if signed.1 = true
        then -((digits_value (signed.2.takeWhile is_digit) 0 : Nat) : Int)
        else ((digits_value (signed.2.takeWhile is_digit) 0 : Nat) : Int)) ∧
        (if signed.1 = true
        then -((digits_value (signed.2.takeWhile is_digit) 0 : Nat) : Int)
        else ((digits_value (signed.2.takeWhile is_digit) 0 : Nat) : Int)) ≤ INT_MAX
    · rw [if_pos h2] at h
      simp only [Option.some.injEq] at h
      exact h.symm
    · rw [if_neg h2] at h; exact absurd h (by simp)

/-- A text on which `stoi` returns `v` starts with an integer literal of
value `v`. -/
theorem stoi_starts_with_int {s : Str} {v : Int} (h : stoi s = some v) :
    starts_with_int s v := by
  obtain ⟨hne, hv⟩ := stoi_some h
  obtain ⟨sg, hu, hsg⟩ := strip_sign_spec (s.dropWhile isspace)
  generalize strip_sign (s.dropWhile isspace) = signed at hne hv hu hsg
  refine ⟨s.takeWhile isspace, sg, signed.2.takeWhile is_digit, signed.2.dropWhile is_digit,
    ?_, takeWhile_true s, ?_, hne, takeWhile_true _, dropWhile_head_false _, ?_, stoi_is_int h⟩
  · rw [List.takeWhile_append_dropWhile, ← hu, List.takeWhile_append_dropWhile]
  · rcases hsg with ⟨e, -⟩ | ⟨e, -⟩ | ⟨e, -⟩
    · exact Or.inl e
    · exact Or.inr (Or.inl e)
    · exact Or.inr (Or.inr e)
  · rcases hsg with ⟨e, b⟩ | ⟨e, b⟩ | ⟨e, b⟩
    · rw [hv, b, e]; simp
    · rw [hv, b, e]; simp
    · rw [hv, b, e]; simp

/-- A text that starts at a sign and on which `stoi` returns `v` is that
sign directly followed by digits of value `v`. -/
theorem stoi_sign_then_digits {c : Char} {r : Str} {v : Int} (hc : c ∈ ['+', '-'])
    (h : stoi (c :: r) = some v) : sign_then_digits (c :: r) v := by
  obtain ⟨hne, hv⟩ := stoi_some h
  have hsp : isspace c = false := by
    simp only [List.mem_cons, List.mem_singleton, List.not_mem_nil, or_false] at hc
    rcases hc with rfl | rfl <;> decide
  have hdw : (c :: r).dropWhile isspace = c :: r := by
    rw [List.dropWhile_cons_of_neg (by simp [hsp])]
  have hss : strip_sign (c :: r) = (decide (c = '-'), r) := by
    simp only [List.mem_cons, List.mem_singleton, List.not_mem_nil, or_false] at hc
    rcases hc with rfl | rfl <;> simp [strip_sign]
  rw [hdw, hss] at hne hv
  simp only [decide_eq_true_eq] at hv
  refine ⟨c, r.takeWhile is_digit, r.dropWhile is_digit, ?_, ?_, hne, takeWhile_true _,
    dropWhile_head_false _, hv, stoi_is_int h⟩
  · rw [List.takeWhile_append_dropWhile]
  · simpa using hc

/-! ## `trim` as the removal of two runs -/

theorem is_trim_char_iff (c : Char) : is_trim_char c = true ↔ c ∈ trim_chars := by
  simp [is_trim_char]

theorem dropWhile_append_all {p : Char → Bool} (x : List Char) :
    ∀ (w : List Char), (∀ c ∈ w, p c = true) → (w ++ x).dropWhile p = x.dropWhile p
  | [], _ => rfl
  | c :: w, h => by
    have hc := h c (List.mem_cons_self _ _)
    rw [List.cons_append, List.dropWhile_cons_of_pos hc]
    exact dropWhile_append_all x w (fun y hy => h y (List.mem_cons_of_mem _ hy))

theorem dropWhile_append_stop {p : Char → Bool} {c : Char} (hc : p c = false) (r : List Char) :
    ∀ (l : List Char), (l ++ c :: r).dropWhile p = l.dropWhile p ++ c :: r
  | [] => by simp [List.dropWhile, hc]
  | x :: l => by
    by_cases hx : p x = true
    · rw [List.cons_append, List.dropWhile_cons_of_pos hx, List.dropWhile_cons_of_pos hx]
      exact dropWhile_append_stop hc r l
    · rw [List.cons_append, List.dropWhile_cons_of_neg hx, List.dropWhile_cons_of_neg hx]
      rfl

theorem rdropWhile_append_all {p : Char → Bool} (x : List Char) (w : List Char)
    (h : ∀ c ∈ w, p c = true) : (x ++ w).rdropWhile p = x.rdropWhile p := by
  unfold List.rdropWhile
  rw [List.reverse_append, dropWhile_append_all _ _ (fun c hc => h c (List.mem_reverse.1 hc))]

theorem rdropWhile_append_stop {p : Char → Bool} {c : Char} (hc : p c = false)
    (l r : List Char) : (l ++ c :: r).rdropWhile p = l ++ c :: r.rdropWhile p := by
  unfold List.rdropWhile
  have e : (l ++ c :: r).reverse = r.reverse ++ c :: l.reverse := by simp
  rw [e, dropWhile_append_stop hc]
  simp

theorem rdropWhile_append_rtakeWhile (p : Char → Bool) (l : List Char) :
    l.rdropWhile p ++ l.rtakeWhile p = l := by
  unfold List.rdropWhile List.rtakeWhile
  rw [← List.reverse_append, List.takeWhile_append_dropWhile, List.reverse_reverse]

/-- The text `trim` returns is the text without its leading and without its
trailing run of trimmed characters. -/
theorem trim_eq (s : Str) : trim s = trim_right (trim_left s) := by
  unfold trim_right trim_left
  by_cases ht : (s.dropWhile is_trim_char).rdropWhile is_trim_char = []
  · rw [ht]
    apply trim_eq_nil
    have hall := List.rdropWhile_eq_nil_iff.1 ht
    have hd : s.dropWhile is_trim_char = [] := by
      cases hdw : s.dropWhile is_trim_char with
      | nil => rfl
      | cons c r =>
        have h1 := dropWhile_head_false s c r hdw
        have h2 := hall c (by rw [hdw]; exact List.mem_cons_self _ _)
        rw [h1] at h2
        exact absurd h2 (by simp)
    intro c hc
    have := List.dropWhile_eq_nil_iff.1 hd c hc
    exact (is_trim_char_iff c).1 this
  · have hs : s = s.takeWhile is_trim_char
        ++ (s.dropWhile is_trim_char).rdropWhile is_trim_char
        ++ (s.dropWhile is_trim_char).rtakeWhile is_trim_char := by
      rw [List.append_assoc, rdropWhile_append_rtakeWhile, List.takeWhile_append_dropWhile]
    have hhead : ((s.dropWhile is_trim_char).rdropWhile is_trim_char).head ht ∉ trim_chars := by
      intro hm
      have hne : s.dropWhile is_trim_char ≠ [] := by
        intro e; rw [e] at ht; exact ht (by simp)
      obtain ⟨c, r, hcr⟩ := List.exists_cons_of_ne_nil hne
      have h1 := dropWhile_head_false s c r hcr
      have hpre := List.rdropWhile_prefix is_trim_char (l := s.dropWhile is_trim_char)
      obtain ⟨t, ht'⟩ := hpre
      cases hx : (s.dropWhile is_trim_char).rdropWhile is_trim_char with
      | nil => exact ht hx
      | cons y ys =>
        have : y = c := by
          rw [hx, hcr] at ht'
          simp only [List.cons_append, List.cons.injEq] at ht'
          exact ht'.1
        simp only [hx, List.head_cons] at hm
        rw [this] at hm
        rw [(is_trim_char_iff c).2 hm] at h1
        exact absurd h1 (by simp)
    have hlast : ((s.dropWhile is_trim_char).rdropWhile is_trim_char).getLast ht
        ∉ trim_chars := by
      intro hm
      exact List.rdropWhile_last_not is_trim_char _ ht ((is_trim_char_iff _).2 hm)
    have := trim_decomp (s.takeWhile is_trim_char) _
      ((s.dropWhile is_trim_char).rtakeWhile is_trim_char)
      (fun c hc => (is_trim_char_iff c).1 (takeWhile_true s c hc))
      (fun c hc => (is_trim_char_iff c).1 (List.mem_rtakeWhile_imp hc)) ht hhead hlast
    rw [← hs] at this
    exact this

/-- White space in front of and behind a text does not change what `trim`
returns. -/
theorem trim_pad (w1 t w2 : Str) (h1 : ∀ c ∈ w1, c ∈ trim_chars)
    (h2 : ∀ c ∈ w2, c ∈ trim_chars) : trim (w1 ++ t ++ w2) = trim t := by
  rw [trim_eq, trim_eq]
  unfold trim_right trim_left
  rw [List.append_assoc,
    dropWhile_append_all _ w1 (fun c hc => (is_trim_char_iff c).2 (h1 c hc))]
  by_cases hall : ∀ c ∈ t, is_trim_char c = true
  · rw [dropWhile_append_all _ t hall]
    have e1 : w2.dropWhile is_trim_char = [] :=
      List.dropWhile_eq_nil_iff.2 (fun c hc => (is_trim_char_iff c).2 (h2 c hc))
    have e2 : t.dropWhile is_trim_char = [] := List.dropWhile_eq_nil_iff.2 hall
    rw [e1, e2]
  · push_neg at hall
    obtain ⟨c, hc, hpc⟩ := hall
    obtain ⟨a, b, hab⟩ := List.append_of_mem hc
    have hpc' : is_trim_char c = false := by simpa using hpc
    have e : t ++ w2 = a ++ c :: (b ++ w2) := by rw [hab]; simp
    rw [e, hab, dropWhile_append_stop hpc', dropWhile_append_stop hpc']
    have e3 : a.dropWhile is_trim_char ++ c :: (b ++ w2)
        = (a.dropWhile is_trim_char ++ c :: b) ++ w2 := by simp
    rw [e3, rdropWhile_append_all _ _ (fun x hx => (is_trim_char_iff x).2 (h2 x hx))]

/-- The result of `trim` on a text around a character that is not trimmed. -/
theorem trim_around {c : Char} (hc : c ∉ trim_chars) (p r : Str) :
    trim (p ++ c :: r) = trim_left p ++ c :: trim_right r := by
  have hc' : is_trim_char c = false := by
    simpa [is_trim_char] using hc
  rw [trim_eq]
  unfold trim_right trim_left
  rw [dropWhile_append_stop hc', rdropWhile_append_stop hc']

/-- The parts `trim` cuts a text into: a leading and a trailing run of
trimmed characters, around a text that neither starts nor ends with one. -/
theorem trim_spec (t : Str) :
    ∃ a b : Str, t = a ++ trim t ++ b ∧
      (∀ c ∈ a, c ∈ trim_chars) ∧ (∀ c ∈ b, c ∈ trim_chars) ∧
      (∀ c r, trim t = c :: r → c ∉ trim_chars) ∧
      (∀ c r, trim t = r ++ [c] → c ∉ trim_chars) := by
  refine ⟨t.takeWhile is_trim_char, (t.dropWhile is_trim_char).rtakeWhile is_trim_char,
    ?_, fun c hc => (is_trim_char_iff c).1 (takeWhile_true t c hc),
    fun c hc => (is_trim_char_iff c).1 (List.mem_rtakeWhile_imp hc), ?_, ?_⟩
  · rw [trim_eq, trim_right, trim_left, List.append_assoc, rdropWhile_append_rtakeWhile,
      List.takeWhile_append_dropWhile]
  · intro c r h hm
    rw [trim_eq, trim_right, trim_left] at h
    obtain ⟨x, hx⟩ := List.rdropWhile_prefix is_trim_char (l := t.dropWhile is_trim_char)
    rw [h] at hx
    have h1 := dropWhile_head_false t c (r ++ x) (by rw [← hx]; rfl)
    rw [(is_trim_char_iff c).2 hm] at h1
    exact absurd h1 (by simp)
  · intro c r h hm
    rw [trim_eq, trim_right, trim_left] at h
    have hne : (t.dropWhile is_trim_char).rdropWhile is_trim_char ≠ [] := by
      rw [h]; simp
    have hl := List.rdropWhile_last_not is_trim_char _ hne
    have e : ((t.dropWhile is_trim_char).rdropWhile is_trim_char).getLast hne = c := by
      simp [h]
    rw [e] at hl
    exact hl ((is_trim_char_iff c).2 hm)

/-- The verdict and the group of `parse_token` depend on the token through
its trimmed text only. -/
theorem parse_token_congr {t1 t2 : Str} (h : trim t1 = trim t2) (g0 : DieGroup) :
    parse_token t1 g0 = parse_token t2 g0 := by
  rw [parse_token_eq, parse_token_eq, h]

theorem mem_trim_left {p : Str} {c : Char} (h : c ∈ trim_left p) : c ∈ p :=
  (List.dropWhile_suffix is_trim_char).subset h

/-- The run of `parse_token` on a token given as the text before its
separator, the separator and the text after it. -/
theorem parse_token_split {sep : Char} (hsep : sep ∈ ['d', 'D']) {p : Str}
    (hp : ∀ c ∈ p, c ∉ ['d', 'D']) (r : Str) (g0 : DieGroup) :
    parse_token (p ++ sep :: r) g0 =
      if !(parse_count g0 (trim_left p)).1 then (false, (parse_count g0 (trim_left p)).2)
      else
        parse_sides_modifier (parse_count g0 (trim_left p)).2
          (split_modifier (trim_right r)).1 (split_modifier (trim_right r)).2 := by
  have hnt : sep ∉ trim_chars := by
    simp only [List.mem_cons, List.mem_singleton, List.not_mem_nil, or_false] at hsep
    rcases hsep with rfl | rfl <;> decide
  have hfind : find_first_of (trim_left p ++ sep :: trim_right r) ['d', 'D']
      = some (trim_left p).length :=
    find_first_of_append hsep _ (fun c hc => hp c (mem_trim_left hc))
  rw [parse_token_eq, trim_around hnt, hfind]
  simp [substr, substr_from]

/-! ## Segments of a text with a comma in it -/

theorem segments_ne_nil : ∀ (s : Str), segments s ≠ []
  | [] => by simp [segments]
  | c :: cs => by
    by_cases hc : c = ','
    · simp [segments, hc]
    · simp only [segments, hc, if_false]
      cases segments cs <;> simp

/-- The segments of two texts joined with a comma are the segments of the
first followed by the segments of the second. -/
theorem segments_append (b : Str) :
    ∀ (a : Str), segments (a ++ ',' :: b) = segments a ++ segments b
  | [] => by simp [segments]
  | c :: a => by
    have ih := segments_append b a
    by_cases hc : c = ','
    · simp [segments, hc, ih]
    · rw [List.cons_append, segments, if_neg hc, ih, segments, if_neg hc]
      cases hs : segments a with
      | nil => exact absurd hs (segments_ne_nil a)
      | cons seg segs => rfl

/-- A blank segment may be removed from the segments the loop is given. -/
theorem process_segments_blank {w : Str} (hw : trim w = []) (s2 : List Str) :
    ∀ (s1 : List Str) (out : List DieGroup),
      process_segments (s1 ++ w :: s2) out = process_segments (s1 ++ s2) out
  | [], out => by
    simp [process_segments, hw]
  | x :: s1, out => by
    rw [List.cons_append, List.cons_append, process_segments, process_segments,
      process_segments_blank hw s2 s1 out]
    simp only
    rw [process_segments_blank hw s2 s1 (out ++ [(parse_token x DieGroup.default).2])]

/-- After segments on which the loop succeeds it goes on with the groups
they gave. -/
theorem process_segments_append (s2 : List Str) :
    ∀ (s1 : List Str) (out A : List DieGroup), process_segments s1 out = (true, A) →
      process_segments (s1 ++ s2) out = process_segments s2 A
  | [], out, A, h => by
    simp only [process_segments, Prod.mk.injEq] at h
    rw [List.nil_append, h.2]
  | x :: s1, out, A, h => by
    rw [process_segments] at h
    rw [List.cons_append, process_segments]
    by_cases hx : (trim x).isEmpty = true
    · rw [if_pos hx] at h ⊢
      exact process_segments_append s2 s1 out A h
    · rw [if_neg hx] at h ⊢
      simp only at h ⊢
      by_cases hp : (parse_token x DieGroup.default).1 = true
      · simp only [hp, Bool.not_true, Bool.false_eq_true, if_false] at h ⊢
        exact process_segments_append s2 s1 _ A h
      · have hp' : (parse_token x DieGroup.default).1 = false := by simpa using hp
        simp only [hp', Bool.not_false, if_true] at h
        exact absurd (congrArg Prod.fst h) (by simp)

/-- A successful run of the loop entered with more groups gives those groups
in front of its own. -/
theorem process_segments_shift (A : List DieGroup) :
    ∀ (s : List Str) (out G : List DieGroup), process_segments s out = (true, G) →
      process_segments s (A ++ out) = (true, A ++ G)
  | [], out, G, h => by
    simp only [process_segments, Prod.mk.injEq] at h ⊢
    obtain ⟨h1, h2⟩ := h
    subst h2
    refine ⟨?_, rfl⟩
    cases out with
    | nil => simp at h1
    | cons g gs => simp
  | x :: s, out, G, h => by
    rw [process_segments] at h ⊢
    by_cases hx : (trim x).isEmpty = true
    · rw [if_pos hx] at h ⊢
      exact process_segments_shift A s out G h
    · rw [if_neg hx] at h ⊢
      simp only at h ⊢
      by_cases hp : (parse_token x DieGroup.default).1 = true
      · simp only [hp, Bool.not_true, Bool.false_eq_true, if_false] at h ⊢
        rw [List.append_assoc]
        exact process_segments_shift A s _ G h
      · have hp' : (parse_token x DieGroup.default).1 = false := by simpa using hp
        simp only [hp', Bool.not_false, if_true] at h
        exact absurd (congrArg Prod.fst h) (by simp)

/-! ## The decimal text against the library's -/

theorem digit_char_eq_digitChar {d : Nat} (h : d < 10) : Nat.digitChar d = digit_char d := by
  have key : ∀ k : Fin 10, Nat.digitChar k.val = digit_char k.val := by decide
  exact key ⟨d, h⟩

theorem nat_to_string_loop_eq_toDigitsCore :
    ∀ (fuel n : Nat) (acc : List Char),
      nat_to_string_loop fuel n acc = Nat.toDigitsCore 10 fuel n acc
  | 0, _, _ => rfl
  | fuel + 1, n, acc => by
    rw [nat_to_string_loop, Nat.toDigitsCore]
    by_cases h : n < 10
    · have h0 : n / 10 = 0 := by omega
      have hm : n % 10 = n := by omega
      simp only [h, if_true, h0, hm]
      rw [digit_char_eq_digitChar h]
    · have h0 : ¬ (n / 10 = 0) := by omega
      simp only [h, if_false, h0]
      rw [digit_char_eq_digitChar (Nat.mod_lt n (by decide)),
        nat_to_string_loop_eq_toDigitsCore fuel (n / 10)]

theorem nat_to_string_eq_repr (n : Nat) : nat_to_string n = (toString n).toList := by
  unfold nat_to_string
  rw [nat_to_string_loop_eq_toDigitsCore]
  rfl

/-- The text written for an `int` is the decimal text of the integer. -/
theorem int_to_string_eq_decimal (x : Int) : int_to_string x = decimal x := by
  unfold decimal
  cases x with
  | ofNat m =>
    have h : ¬ ((Int.ofNat m) < 0) := by simp
    simp only [int_to_string, h, if_false]
    rw [show (Int.ofNat m).toNat = m from rfl, nat_to_string_eq_repr]
    rfl
  | negSucc m =>
    have h : (Int.negSucc m) < 0 := Int.negSucc_lt_zero m
    simp only [int_to_string, h, if_true]
    rw [show (Int.negSucc m).natAbs = m + 1 from rfl, nat_to_string_eq_repr]
    rfl

theorem render_group_eq_canonical_term (g : DieGroup) : render_group g = canonical_term g := by
  unfold render_group canonical_term modifier_text
  rw [int_to_string_eq_decimal, int_to_string_eq_decimal, int_to_string_eq_decimal]
  split_ifs <;> simp

theorem render_groups_eq_canonical_text :
    ∀ (groups : List DieGroup), render_groups groups = canonical_text groups
  | [] => rfl
  | [g] => by
    simp [render_groups, render_rest, canonical_text, List.intercalate,
      render_group_eq_canonical_term]
  | g :: g' :: gs => by
    have ih := render_groups_eq_canonical_text (g' :: gs)
    simp only [render_groups, render_rest, canonical_text, List.intercalate, List.map_cons,
      List.intersperse] at ih ⊢
    rw [List.flatten_cons, List.flatten_cons, ← ih, render_group_eq_canonical_term]
    rfl

/-! ## The count map -/

theorem count_map_increment_sum :
    ∀ (m : CountMap) (key : Int),
      ((count_map_increment m key).map Prod.snd).sum = (m.map Prod.snd).sum + 1
  | [], key => by simp [count_map_increment]
  | (k, v) :: rest, key => by
    by_cases h : k = key
    · simp only [count_map_increment, if_pos h, List.map_cons, List.sum_cons]
      ring
    · simp only [count_map_increment, if_neg h, List.map_cons, List.sum_cons,
        count_map_increment_sum rest key]
      ring

theorem count_map_find_increment :
    ∀ (m : CountMap) (key value : Int),
      count_map_find (count_map_increment m key) value
        = if value = key then some ((count_map_find m key).getD 0 + 1)
          else count_map_find m value
  | [], key, value => by
    by_cases h : value = key
    · simp [count_map_increment, count_map_find, h]
    · have h' : ¬ key = value := fun e => h e.symm
      simp [count_map_increment, count_map_find, h, h']
  | (k, v) :: rest, key, value => by
    have ih := count_map_find_increment rest key value
    by_cases hk : k = key
    · by_cases hv : value = key
      · subst hk; subst hv
        simp [count_map_increment, count_map_find]
      · subst hk
        have hkv : ¬ k = value := fun e => hv e.symm
        simp [count_map_increment, count_map_find, hv, hkv]
    · by_cases hv : value = key
      · subst hv
        simp only [count_map_increment, if_neg hk, count_map_find, ih, if_true]
      · simp only [count_map_increment, if_neg hk, count_map_find, ih, if_neg hv]

theorem count_map_increment_keys :
    ∀ (m : CountMap) (key : Int),
      (count_map_increment m key).map Prod.fst
        = if key ∈ m.map Prod.fst then m.map Prod.fst else m.map Prod.fst ++ [key]
  | [], key => by simp [count_map_increment]
  | (k, v) :: rest, key => by
    by_cases h : k = key
    · subst h
      simp [count_map_increment]
    · have h' : ¬ key = k := fun e => h e.symm
      simp only [count_map_increment, if_neg h, List.map_cons, count_map_increment_keys rest key,
        List.mem_cons, h', false_or]
      split_ifs <;> simp

theorem count_map_increment_nodup (m : CountMap) (key : Int)
    (h : (m.map Prod.fst).Nodup) : ((count_map_increment m key).map Prod.fst).Nodup := by
  rw [count_map_increment_keys]
  split_ifs with hk
  · exact h
  · exact List.Nodup.append h (List.nodup_singleton _) (by simpa using hk)

/-- In a map whose keys are distinct the entries are what `find` returns. -/
theorem count_map_mem_iff_find :
    ∀ (m : CountMap), (m.map Prod.fst).Nodup →
      ∀ (value count : Int), (value, count) ∈ m ↔ count_map_find m value = some count
  | [], _, value, count => by simp [count_map_find]
  | (k, v) :: rest, h, value, count => by
    simp only [List.map_cons, List.nodup_cons] at h
    have ih := count_map_mem_iff_find rest h.2 value count
    by_cases hk : k = value
    · subst hk
      simp only [List.mem_cons, Prod.mk.injEq, true_and, count_map_find, if_true,
        Option.some.injEq]
      constructor
      · rintro (e | hm)
        · exact e.symm
        · exact absurd (List.mem_map_of_mem Prod.fst hm) h.1
      · intro e; exact Or.inl e.symm
    · have hk' : ¬ value = k := fun e => hk e.symm
      simp only [List.mem_cons, Prod.mk.injEq, hk', false_and, false_or, count_map_find,
        if_neg hk, ih]

/-! ## The simulation loop -/

theorem simulate_dice_rolls_loop_sum {σ : Type} (draw : σ → Int → Int × σ)
    (groups : List DieGroup) (seeds : Nat → σ) :
    ∀ (n trial : Nat) (m : CountMap),
      ((simulate_dice_rolls_loop draw groups seeds n trial m).map Prod.snd).sum
        = (m.map Prod.snd).sum + n
  | 0, _, m => by simp [simulate_dice_rolls_loop]
  | n + 1, trial, m => by
    simp only [simulate_dice_rolls_loop]
    rw [simulate_dice_rolls_loop_sum draw groups seeds n, count_map_increment_sum]
    push_cast
    ring

theorem simulate_dice_rolls_loop_nodup {σ : Type} (draw : σ → Int → Int × σ)
    (groups : List DieGroup) (seeds : Nat → σ) :
    ∀ (n trial : Nat) (m : CountMap), (m.map Prod.fst).Nodup →
      ((simulate_dice_rolls_loop draw groups seeds n trial m).map Prod.fst).Nodup
  | 0, _, _, h => h
  | n + 1, trial, m, h => by
    simp only [simulate_dice_rolls_loop]
    exact simulate_dice_rolls_loop_nodup draw groups seeds n _ _
      (count_map_increment_nodup m _ h)

/-- The count the loop leaves for a value: what was stored plus the number of
the trials that gave the value; a value that no trial gave and that was not a
key is still not a key. -/
theorem simulate_dice_rolls_loop_find {σ : Type} (draw : σ → Int → Int × σ)
    (groups : List DieGroup) (seeds : Nat → σ) (value : Int) :
    ∀ (n trial : Nat) (m : CountMap),
      count_map_find (simulate_dice_rolls_loop draw groups seeds n trial m) value
        = if (trial_outcomes draw groups seeds n trial).count value = 0
          then count_map_find m value
          else some ((count_map_find m value).getD 0
                + ((trial_outcomes draw groups seeds n trial).count value : Nat))
  | 0, _, m => by simp [simulate_dice_rolls_loop, trial_outcomes]
  | n + 1, trial, m => by
    simp only [simulate_dice_rolls_loop, trial_outcomes]
    rw [simulate_dice_rolls_loop_find draw groups seeds value n, count_map_find_increment]
    generalize (roll_dice draw groups (seeds trial)).1 = r
    by_cases hv : value = r
    · subst hv
      simp only [if_true, List.count_cons_self, Nat.succ_ne_zero, if_false, Option.getD_some]
      generalize (trial_outcomes draw groups seeds n (trial + 1)).count value = c
      by_cases hc : c = 0
      · simp [hc]
      · simp only [hc, if_false, Option.some.injEq]
        push_cast
        ring
    · have hv' : ¬ r = value := fun e => hv e.symm
      have hcount : (r :: trial_outcomes draw groups seeds n (trial + 1)).count value
          = (trial_outcomes draw groups seeds n (trial + 1)).count value := by
        simp [List.count_cons, hv']
      simp only [if_neg hv, hcount]

theorem trial_outcomes_length {σ : Type} (draw : σ → Int → Int × σ)
    (groups : List DieGroup) (seeds : Nat → σ) :
    ∀ (n first : Nat), (trial_outcomes draw groups seeds n first).length = n
  | 0, _ => rfl
  | n + 1, first => by
    simp [trial_outcomes, trial_outcomes_length draw groups seeds n]

/-- A value is among the outcomes when one of the trials gave it. -/
theorem trial_outcomes_mem {σ : Type} (draw : σ → Int → Int × σ)
    (groups : List DieGroup) (seeds : Nat → σ) (value : Int) :
    ∀ (n first : Nat), value ∈ trial_outcomes draw groups seeds n first ↔
      ∃ i, i < n ∧ (roll_dice draw groups (seeds (first + i))).1 = value
  | 0, _ => by simp [trial_outcomes]
  | n + 1, first => by
    simp only [trial_outcomes, List.mem_cons, trial_outcomes_mem draw groups seeds value n]
    constructor
    · rintro (e | ⟨i, hi, e⟩)
      · exact ⟨0, by omega, e.symm⟩
      · exact ⟨i + 1, by omega, by rw [← e]; congr 3; omega⟩
    · rintro ⟨i, hi, e⟩
      cases i with
      | zero => exact Or.inl e.symm
      | succ j => exact Or.inr ⟨j, by omega, by rw [← e]; congr 3; omega⟩

/-! ## The draws `roll_dice` requests -/

/-- The record the inner loop leaves: the record at entry followed by `n`
draws, each requested for `sides`. -/
theorem roll_group_loop_record {σ : Type} (add : Int → Int → Int)
    (draw : σ → Int → Int × σ) (sides : Int) :
    ∀ (n : Nat) (total : Int) (s : σ) (tr : List (Int × Int)),
      ∃ L : List (Int × Int),
        (roll_group_loop add (recording draw) sides n total (s, tr)).2.2 = tr ++ L ∧
        L.length = n ∧ ∀ p ∈ L, p.1 = sides
  | 0, _, _, tr => ⟨[], by simp [roll_group_loop], rfl, by simp⟩
  | n + 1, total, s, tr => by
    obtain ⟨L, h1, h2, h3⟩ := roll_group_loop_record add draw sides n
      (add total (draw s sides).1) (draw s sides).2 (tr ++ [(sides, (draw s sides).1)])
    refine ⟨(sides, (draw s sides).1) :: L, ?_, by simp [h2], ?_⟩
    · simp only [roll_group_loop, recording]
      rw [h1]
      simp
    · intro p hp
      rcases List.mem_cons.1 hp with rfl | hp
      · rfl
      · exact h3 p hp

/-- The record the outer loop leaves: the record at entry followed by the
draws of the groups that are not skipped, each requested for the `sides` of
its group, `count` of them for each such group. -/
theorem roll_dice_loop_record {σ : Type} (add : Int → Int → Int)
    (draw : σ → Int → Int × σ) :
    ∀ (groups : List DieGroup) (total : Int) (s : σ) (tr : List (Int × Int)),
      ∃ L : List (Int × Int),
        (roll_dice_loop add (recording draw) groups total (s, tr)).2.2 = tr ++ L ∧
        (L.length : Int) = ((rolled_groups groups).map (fun g => g.count)).sum ∧
        ∀ p ∈ L, ∃ g ∈ groups, p.1 = g.sides ∧ 1 ≤ g.sides ∧ 1 ≤ g.count
  | [], _, _, tr => ⟨[], by simp [roll_dice_loop], by simp [rolled_groups], by simp⟩
  | g :: gs, total, s, tr => by
    by_cases h : g.sides ≤ 0 ∨ g.count ≤ 0
    · obtain ⟨L, h1, h2, h3⟩ := roll_dice_loop_record add draw gs total s tr
      have hf : decide (0 < g.sides ∧ 0 < g.count) = false := by
        simp only [decide_eq_false_iff_not]; omega
      refine ⟨L, ?_, ?_, ?_⟩
      · simp only [roll_dice_loop, if_pos h]
        exact h1
      · rw [h2]
        simp only [rolled_groups, List.filter_cons, hf, Bool.false_eq_true, if_false]
      · intro p hp
        obtain ⟨x, hx, hp'⟩ := h3 p hp
        exact ⟨x, List.mem_cons_of_mem _ hx, hp'⟩
    · have hf : decide (0 < g.sides ∧ 0 < g.count) = true := by
        simp only [decide_eq_true_eq]; omega
      have hcast : ((g.count.toNat : Nat) : Int) = g.count := Int.toNat_of_nonneg (by omega)
      obtain ⟨L1, a1, a2, a3⟩ := roll_group_loop_record add draw g.sides g.count.toNat total s tr
      generalize hr : roll_group_loop add (recording draw) g.sides g.count.toNat total (s, tr) = r
        at a1
      obtain ⟨t, s', tr'⟩ := r
      simp only at a1
      obtain ⟨L2, b1, b2, b3⟩ := roll_dice_loop_record add draw gs (add t g.modifier) s' tr'
      refine ⟨L1 ++ L2, ?_, ?_, ?_⟩
      · simp only [roll_dice_loop, if_neg h, hr]
        rw [b1, a1, List.append_assoc]
      · simp only [rolled_groups, List.filter_cons, hf, if_true, List.map_cons, List.sum_cons,
          List.length_append]
        simp only [rolled_groups] at b2
        push_cast
        rw [a2, b2, hcast]
      · intro p hp
        rcases List.mem_append.1 hp with hp | hp
        · exact ⟨g, List.mem_cons_self _ _, a3 p hp, by omega, by omega⟩
        · obtain ⟨x, hx, hp'⟩ := b3 p hp
          exact ⟨x, List.mem_cons_of_mem _ hx, hp'⟩

/-- The draws `roll_dice` makes: their number is the sum of the counts of
the groups that are not skipped, and each is requested for the `sides` of
such a group. -/
theorem draws_made_spec {σ : Type} (draw : σ → Int → Int × σ) (groups : List DieGroup)
    (s : σ) :
    ((draws_made draw groups s).length : Int)
        = ((rolled_groups groups).map (fun g => g.count)).sum ∧
      ∀ p ∈ draws_made draw groups s, ∃ g ∈ groups, p.1 = g.sides ∧ 1 ≤ g.sides ∧ 1 ≤ g.count := by
  obtain ⟨L, h1, h2, h3⟩ := roll_dice_loop_record int_add draw groups 0 s []
  unfold draws_made roll_dice
  rw [h1, List.nil_append]
  exact ⟨h2, h3⟩

/-- In a sequence with `count ≥ 0` and `sides > 0` the counts of the groups
that are not skipped sum to the counts of all groups. -/
theorem rolled_groups_count_sum :
    ∀ (groups : List DieGroup), (∀ g ∈ groups, 0 ≤ g.count ∧ 0 < g.sides) →
      ((rolled_groups groups).map (fun g => g.count)).sum
        = (groups.map (fun g => g.count)).sum
  | [], _ => rfl
  | g :: gs, h => by
    have hg := h g (List.mem_cons_self _ _)
    have ih := rolled_groups_count_sum gs (fun x hx => h x (List.mem_cons_of_mem _ hx))
    simp only [rolled_groups] at ih
    by_cases hc : 0 < g.count
    · have hf : decide (0 < g.sides ∧ 0 < g.count) = true := by
        simp only [decide_eq_true_eq]; omega
      simp only [rolled_groups, List.filter_cons, hf, if_true, List.map_cons, List.sum_cons, ih]
    · have hf : decide (0 < g.sides ∧ 0 < g.count) = false := by
        simp only [decide_eq_false_iff_not]; omega
      have h0 : g.count = 0 := by omega
      simp only [rolled_groups, List.filter_cons, hf, Bool.false_eq_true, if_false, ih,
        List.map_cons, List.sum_cons]
      rw [h0, zero_add]

theorem simulate_dice_rolls_keys_nodup {σ : Type} (draw : σ → Int → Int × σ)
    (groups : List DieGroup) (number_of_trials : Int) (seeds : Nat → σ) :
    ((simulate_dice_rolls draw groups number_of_trials seeds).map Prod.fst).Nodup :=
  simulate_dice_rolls_loop_nodup draw groups seeds _ _ [] List.nodup_nil

/-! ## Round trip of the parser and the canonical text -/

/-- C1: canonicalization is idempotent. Whenever `parse_specification`
succeeds on a text with the groups `G`, it also succeeds on
`groups_to_string G` and returns the same sequence `G`, whatever the output
vectors held before. -/
theorem parse_render_parse_idempotent (S : Str) (prior prior' G : List DieGroup)
    (h : parse_specification S prior = (true, G)) :
    parse_specification (groups_to_string G) prior' = (true, G) := by
  obtain ⟨hne, hv⟩ := parse_specification_true h
  exact parse_specification_groups_to_string hne hv prior'

/-- C1 at the text `d6, 2D10-3,` whose canonical text `1d6,2d10-3` differs
from it. -/
theorem parse_render_parse_idempotent_witness :
    parse_specification "d6, 2D10-3,".toList []
        = (true, [{ count := 1, sides := 6, modifier := 0 },
                  { count := 2, sides := 10, modifier := -3 }]) ∧
      groups_to_string [{ count := 1, sides := 6, modifier := 0 },
                  { count := 2, sides := 10, modifier := -3 }] = "1d6,2d10-3".toList ∧
      parse_specification
          (groups_to_string [{ count := 1, sides := 6, modifier := 0 },
                  { count := 2, sides := 10, modifier := -3 }]) []
        = (true, [{ count := 1, sides := 6, modifier := 0 },
                  { count := 2, sides := 10, modifier := -3 }]) :=
  ⟨by decide, by decide,
    parse_render_parse_idempotent "d6, 2D10-3,".toList [] [] _ (by decide)⟩

/-- C2: the parser is correct on canonical text. For every non-empty
sequence `G` of groups with `count ≥ 0`, `sides ≥ 1` and all fields within
the range of `int`, `parse_specification (groups_to_string G)` succeeds with
exactly `G`; `1d6` parses to the single group `{1, 6, 0}` and
`2d6+2,3d10, 8d10+6` to the three groups `{2, 6, 2}`, `{3, 10, 0}`,
`{8, 10, 6}`. -/
theorem parse_canonical_text :
    (∀ (G prior : List DieGroup), G ≠ [] →
      (∀ g ∈ G, 0 ≤ g.count ∧ 1 ≤ g.sides ∧ is_int g.count ∧ is_int g.sides ∧
        is_int g.modifier) →
      parse_specification (groups_to_string G) prior = (true, G)) ∧
    (∀ prior : List DieGroup,
      parse_specification "1d6".toList prior
        = (true, [{ count := 1, sides := 6, modifier := 0 }])) ∧
    (∀ prior : List DieGroup,
      parse_specification "2d6+2,3d10, 8d10+6".toList prior
        = (true, [{ count := 2, sides := 6, modifier := 2 },
                  { count := 3, sides := 10, modifier := 0 },
                  { count := 8, sides := 10, modifier := 6 }])) :=
  ⟨fun _ prior hne hv => parse_specification_groups_to_string hne hv prior,
    fun prior => by rw [parse_specification_prior]; decide,
    fun prior => by rw [parse_specification_prior]; decide⟩

/-- C2 at the groups `0d1-2147483648,
2147483647d2147483647+2147483647`, the extremes of the accepted ranges, with
an output vector that held a group. -/
theorem parse_canonical_text_witness :
    ([{ count := 0, sides := 1, modifier := -2147483648 },
        { count := 2147483647, sides := 2147483647, modifier := 2147483647 }]
        ≠ ([] : List DieGroup)) ∧
      (∀ g ∈ [({ count := 0, sides := 1, modifier := -2147483648 } : DieGroup),
          { count := 2147483647, sides := 2147483647, modifier := 2147483647 }],
        0 ≤ g.count ∧ 1 ≤ g.sides ∧ is_int g.count ∧ is_int g.sides ∧ is_int g.modifier) ∧
      parse_specification
        (groups_to_string [{ count := 0, sides := 1, modifier := -2147483648 },
          { count := 2147483647, sides := 2147483647, modifier := 2147483647 }])
        [{ count := 7, sides := 7, modifier := 7 }]
      = (true, [{ count := 0, sides := 1, modifier := -2147483648 },
          { count := 2147483647, sides := 2147483647, modifier := 2147483647 }]) :=
  ⟨by decide, by decide, parse_canonical_text.1 _ _ (by decide) (by decide)⟩

/-- C3: the invariant after a successful parse. Whenever
`parse_specification` succeeds, the sequence it returns is not empty and
every group in it has `sides > 0` and `count ≥ 0`; the texts `2d0` (sides
zero), `2d-3` (sides negative) and `-1d6` (count negative) are rejected. -/
theorem parse_invariant :
    (∀ (S : Str) (prior G : List DieGroup), parse_specification S prior = (true, G) →
      G ≠ [] ∧ ∀ g ∈ G, 0 < g.sides ∧ 0 ≤ g.count) ∧
    (∀ prior : List DieGroup, (parse_specification "2d0".toList prior).1 = false) ∧
    (∀ prior : List DieGroup, (parse_specification "2d-3".toList prior).1 = false) ∧
    (∀ prior : List DieGroup, (parse_specification "-1d6".toList prior).1 = false) := by
  refine ⟨?_, fun prior => by rw [parse_specification_prior]; decide,
    fun prior => by rw [parse_specification_prior]; decide,
    fun prior => by rw [parse_specification_prior]; decide⟩
  intro S prior G h
  obtain ⟨hne, hv⟩ := parse_specification_true h
  refine ⟨hne, fun g hg => ?_⟩
  have := hv g hg
  exact ⟨by have := this.2.1; omega, this.1⟩

/-- C3 at the text `0d1,d6+2`. -/
theorem parse_invariant_witness :
    parse_specification "0d1,d6+2".toList []
        = (true, [{ count := 0, sides := 1, modifier := 0 },
                  { count := 1, sides := 6, modifier := 2 }]) ∧
      ([{ count := 0, sides := 1, modifier := 0 },
        { count := 1, sides := 6, modifier := 2 }] ≠ ([] : List DieGroup) ∧
       ∀ g ∈ [{ count := 0, sides := 1, modifier := 0 },
              ({ count := 1, sides := 6, modifier := 2 } : DieGroup)],
         0 < g.sides ∧ 0 ≤ g.count) :=
  ⟨by decide, parse_invariant.1 "0d1,d6+2".toList [] _ (by decide)⟩

/-! ## The roll engine at fixed draws -/

theorem rolled_groups_eq_filter_count {groups : List DieGroup}
    (h : ∀ g ∈ groups, 0 ≤ g.count ∧ 0 < g.sides) :
    rolled_groups groups = groups.filter (fun g => decide (1 ≤ g.count)) := by
  unfold rolled_groups
  apply List.filter_congr
  intro g hg
  have := h g hg
  simp only [decide_eq_decide]
  omega

theorem rolled_groups_eq_filter_not {groups : List DieGroup} :
    rolled_groups groups
      = groups.filter (fun g => !decide (g.sides ≤ 0 ∨ g.count ≤ 0)) := by
  unfold rolled_groups
  apply List.filter_congr
  intro g _
  by_cases h : g.sides ≤ 0 ∨ g.count ≤ 0
  · have h' : ¬ (0 < g.sides ∧ 0 < g.count) := by omega
    simp [h, h']
  · have h' : 0 < g.sides ∧ 0 < g.count := by omega
    simp [h, h']

/-- C4, as stated, fails. The single group `{count = 0, sides = 6,
modifier = 5}` satisfies `count ≥ 0` and `sides > 0`; with every die at its
highest face, and with every die at 1, `roll_dice` returns 0, while both
closed forms of the claim are 5: the group contributes nothing, not its
modifier. The group `{2, 2147483647, 0}` at the highest faces has the closed
form 4294967294, which no `int` holds; the 32-bit total is -2. -/
theorem extreme_rolls_counterexample :
    (∀ g ∈ [({ count := 0, sides := 6, modifier := 5 } : DieGroup)],
        0 ≤ g.count ∧ 0 < g.sides) ∧
      roll_dice draw_max [{ count := 0, sides := 6, modifier := 5 }] () = (0, ()) ∧
      roll_dice_exact draw_max [{ count := 0, sides := 6, modifier := 5 }] () = (0, ()) ∧
      sum_max [{ count := 0, sides := 6, modifier := 5 }] = 5 ∧
      roll_dice draw_min [{ count := 0, sides := 6, modifier := 5 }] () = (0, ()) ∧
      roll_dice_exact draw_min [{ count := 0, sides := 6, modifier := 5 }] () = (0, ()) ∧
      sum_min [{ count := 0, sides := 6, modifier := 5 }] = 5 ∧
      (∀ g ∈ [({ count := 2, sides := 2147483647, modifier := 0 } : DieGroup)],
        0 ≤ g.count ∧ 0 < g.sides) ∧
      roll_dice draw_max [{ count := 2, sides := 2147483647, modifier := 0 }] () = (-2, ()) ∧
      sum_max [{ count := 2, sides := 2147483647, modifier := 0 }] = 4294967294 := by
  decide

/-- C4, amended. For every group sequence in which every group has
`count ≥ 0` and `sides > 0`, with every die at its highest face the exact
total is the sum of `count * sides + modifier` over the groups with
`count ≥ 1`, and with every die at 1 it is the sum of `count * 1 + modifier`
over those groups; a group with `count = 0` contributes nothing. The `int`
that `roll_dice` returns is that sum reduced to 32 bits, hence the sum itself
whenever the sum is within the range of `int`. -/
theorem extreme_rolls_closed_form (groups : List DieGroup)
    (h : ∀ g ∈ groups, 0 ≤ g.count ∧ 0 < g.sides) :
    roll_dice_exact draw_max groups ()
        = (sum_max (groups.filter (fun g => decide (1 ≤ g.count))), ()) ∧
      roll_dice_exact draw_min groups ()
        = (sum_min (groups.filter (fun g => decide (1 ≤ g.count))), ()) ∧
      roll_dice draw_max groups ()
        = (int_wrap (sum_max (groups.filter (fun g => decide (1 ≤ g.count)))), ()) ∧
      roll_dice draw_min groups ()
        = (int_wrap (sum_min (groups.filter (fun g => decide (1 ≤ g.count)))), ()) ∧
      (is_int (sum_max (groups.filter (fun g => decide (1 ≤ g.count)))) →
        roll_dice draw_max groups ()
          = (sum_max (groups.filter (fun g => decide (1 ≤ g.count))), ())) ∧
      (is_int (sum_min (groups.filter (fun g => decide (1 ≤ g.count)))) →
        roll_dice draw_min groups ()
          = (sum_min (groups.filter (fun g => decide (1 ≤ g.count))), ())) := by
  have hmax : roll_dice_exact draw_max groups ()
      = (sum_max (groups.filter (fun g => decide (1 ≤ g.count))), ()) := by
    unfold roll_dice_exact
    rw [roll_dice_loop_rolled, roll_dice_loop_max _ (rolled_groups_valid groups),
      rolled_groups_eq_filter_count h]
    simp
  have hmin : roll_dice_exact draw_min groups ()
      = (sum_min (groups.filter (fun g => decide (1 ≤ g.count))), ()) := by
    unfold roll_dice_exact
    rw [roll_dice_loop_rolled, roll_dice_loop_min _ (rolled_groups_valid groups),
      rolled_groups_eq_filter_count h]
    simp
  have wmax := roll_dice_eq_wrap draw_max groups ()
  have wmin := roll_dice_eq_wrap draw_min groups ()
  rw [hmax] at wmax
  rw [hmin] at wmin
  refine ⟨hmax, hmin, wmax, wmin, ?_, ?_⟩
  · intro hr
    rw [wmax, int_wrap_of_range hr.1 hr.2]
  · intro hr
    rw [wmin, int_wrap_of_range hr.1 hr.2]

/-- C4, amended, at the groups `2d6+2, 0d6+5, 3d10`: the highest total is
`12 + 2 + 30 = 44` and the lowest `2 + 2 + 3 = 7`. -/
theorem extreme_rolls_closed_form_witness :
    (∀ g ∈ [({ count := 2, sides := 6, modifier := 2 } : DieGroup),
        { count := 0, sides := 6, modifier := 5 }, { count := 3, sides := 10, modifier := 0 }],
        0 ≤ g.count ∧ 0 < g.sides) ∧
      roll_dice draw_max [{ count := 2, sides := 6, modifier := 2 },
        { count := 0, sides := 6, modifier := 5 }, { count := 3, sides := 10, modifier := 0 }] ()
        = (44, ()) ∧
      roll_dice draw_min [{ count := 2, sides := 6, modifier := 2 },
        { count := 0, sides := 6, modifier := 5 }, { count := 3, sides := 10, modifier := 0 }] ()
        = (7, ()) :=
  ⟨by decide, (extreme_rolls_closed_form _ (by decide)).2.2.2.2.1 (by decide),
    (extreme_rolls_closed_form _ (by decide)).2.2.2.2.2 (by decide)⟩

/-- C5, as stated, fails. The groups parsed from `2d6+2,3d10, 8d10+6` have
`count ≥ 1` and `sides ≥ 1`, and with every die at its highest face, each
draw within `[1, sides]`, the exact total is 130, which is not in
`[13, 106]`. -/
theorem outcome_bounds_counterexample :
    parse_specification "2d6+2,3d10, 8d10+6".toList [] = (true, sample_groups) ∧
      (∀ g ∈ sample_groups, 1 ≤ g.count ∧ 1 ≤ g.sides) ∧
      (∀ p ∈ draws_made draw_max sample_groups (), 1 ≤ p.2 ∧ p.2 ≤ p.1) ∧
      (roll_dice_exact draw_max sample_groups ()).1 = 130 ∧
      ¬ ((roll_dice_exact draw_max sample_groups ()).1 ≤ 106) := by
  decide

/-- C5, amended. For every group sequence with `count ≥ 1` and `sides ≥ 1`,
every source of draws and every generator state such that each draw
`roll_dice` makes lies within `[1, sides]` of its group, the exact total lies
between the sum of `count + modifier` and the sum of
`count * sides + modifier`; for the groups parsed from `2d6+2,3d10, 8d10+6`
the total then lies in `[21, 130]`, and both ends are reached. -/
theorem outcome_bounds :
    (∀ {σ : Type} (draw : σ → Int → Int × σ) (groups : List DieGroup) (s : σ),
      (∀ g ∈ groups, 1 ≤ g.count ∧ 1 ≤ g.sides) →
      (∀ p ∈ draws_made draw groups s, 1 ≤ p.2 ∧ p.2 ≤ p.1) →
      (groups.map (fun g => g.count + g.modifier)).sum ≤ (roll_dice_exact draw groups s).1 ∧
      (roll_dice_exact draw groups s).1
        ≤ (groups.map (fun g => g.count * g.sides + g.modifier)).sum) ∧
    (∀ prior : List DieGroup,
      parse_specification "2d6+2,3d10, 8d10+6".toList prior = (true, sample_groups)) ∧
    (∀ {σ : Type} (draw : σ → Int → Int × σ) (s : σ),
      (∀ p ∈ draws_made draw sample_groups s, 1 ≤ p.2 ∧ p.2 ≤ p.1) →
      21 ≤ (roll_dice_exact draw sample_groups s).1 ∧
      (roll_dice_exact draw sample_groups s).1 ≤ 130) ∧
    (roll_dice_exact draw_min sample_groups ()).1 = 21 ∧
    (roll_dice_exact draw_max sample_groups ()).1 = 130 := by
  refine ⟨?_, fun prior => by rw [parse_specification_prior]; decide, ?_, by decide, by decide⟩
  · intro σ draw groups s hg hd
    have := roll_dice_exact_bounds draw groups s hg hd
    simpa [sum_min, sum_max] using this
  · intro σ draw s hd
    have := roll_dice_exact_bounds draw sample_groups s (by decide) hd
    have e1 : sum_min sample_groups = 21 := by decide
    have e2 : sum_max sample_groups = 130 := by decide
    rw [e1, e2] at this
    exact this

/-- C5, amended, at the source that replays the draws 3, 4 for `2d6`,
1, 10, 5 for `3d10` and eight times 2 for `8d10`: the total 47 is within
`[21, 130]`. -/
theorem outcome_bounds_witness :
    (∀ p ∈ draws_made draw_list sample_groups [3, 4, 1, 10, 5, 2, 2, 2, 2, 2, 2, 2, 2],
        1 ≤ p.2 ∧ p.2 ≤ p.1) ∧
      (roll_dice_exact draw_list sample_groups [3, 4, 1, 10, 5, 2, 2, 2, 2, 2, 2, 2, 2]).1
        = 47 ∧
      (21 ≤ (roll_dice_exact draw_list sample_groups
          [3, 4, 1, 10, 5, 2, 2, 2, 2, 2, 2, 2, 2]).1 ∧
        (roll_dice_exact draw_list sample_groups
          [3, 4, 1, 10, 5, 2, 2, 2, 2, 2, 2, 2, 2]).1 ≤ 130) :=
  ⟨by decide, by decide,
    outcome_bounds.2.2.1 draw_list [3, 4, 1, 10, 5, 2, 2, 2, 2, 2, 2, 2, 2] (by decide)⟩

/-- C6: skip semantics. For every group sequence, every source of draws and
every generator state, `roll_dice` returns the same total, makes the same
draws and leaves the generator in the same state as on the sequence from
which every group with `sides ≤ 0` or `count ≤ 0` is removed, in 32-bit and
in exact arithmetic alike; the single group `{count = 0, sides = 6,
modifier = 5}` evaluates to 0 and makes no draw. -/
theorem skip_semantics {σ : Type} (draw : σ → Int → Int × σ) (groups : List DieGroup)
    (s : σ) :
    roll_dice draw groups s
        = roll_dice draw (groups.filter (fun g => !decide (g.sides ≤ 0 ∨ g.count ≤ 0))) s ∧
      roll_dice_exact draw groups s
        = roll_dice_exact draw
            (groups.filter (fun g => !decide (g.sides ≤ 0 ∨ g.count ≤ 0))) s ∧
      draws_made draw groups s
        = draws_made draw (groups.filter (fun g => !decide (g.sides ≤ 0 ∨ g.count ≤ 0))) s ∧
      roll_dice draw [{ count := 0, sides := 6, modifier := 5 }] s = (0, s) ∧
      draws_made draw [{ count := 0, sides := 6, modifier := 5 }] s = [] := by
  refine ⟨?_, ?_, ?_, ?_, ?_⟩
  · unfold roll_dice
    rw [← rolled_groups_eq_filter_not]
    exact roll_dice_loop_rolled _ _ _ _ _
  · unfold roll_dice_exact
    rw [← rolled_groups_eq_filter_not]
    exact roll_dice_loop_rolled _ _ _ _ _
  · unfold draws_made roll_dice
    rw [← rolled_groups_eq_filter_not, ← roll_dice_loop_rolled]
  · simp [roll_dice, roll_dice_loop]
  · simp [draws_made, roll_dice, roll_dice_loop]

/-! ## The grammar of a token -/

theorem parse_token_true_any {token : Str} {g0 g : DieGroup} (g0' : DieGroup)
    (h : parse_token token g0 = (true, g)) : parse_token token g0' = (true, g) := by
  obtain ⟨h1, h2⟩ := parse_token_output_irrelevant token g0 g0'
  rw [h] at h1 h2
  have e2 := h2 rfl
  exact Prod.ext h1.symm e2.symm

/-- C7, as stated, fails. The tokens `2xd6`, `2d6x` and `2d6+2abc`, whose
count, sides and modifier texts `2x`, `6x` and `+2abc` are not integer
literals, are accepted, as `2d6`, `2d6` and `2d6+2`. -/
theorem grammar_strictness_counterexample :
    parse_token "2xd6".toList DieGroup.default
        = (true, { count := 2, sides := 6, modifier := 0 }) ∧
      parse_token "2d6x".toList DieGroup.default
        = (true, { count := 2, sides := 6, modifier := 0 }) ∧
      parse_token "2d6+2abc".toList DieGroup.default
        = (true, { count := 2, sides := 6, modifier := 2 }) := by
  decide

/-- C7, amended. `parse_token` succeeds on a token only if the trimmed token
is a count text without `d`/`D`, a separator `d` or `D`, a sides text without
sign, and a modifier text, where the count text is empty (count 1) or starts
with an integer literal that is not negative, the sides text starts with a
positive integer literal, and the modifier text is empty (modifier 0) or a
sign directly followed by at least one digit. An integer literal may follow
white space and a sign, and what comes after its digits is ignored: `2xd6`,
`2d6x` and `2d6+2abc` are accepted as `2d6`, `2d6` and `2d6+2`. A token whose
count, sides or modifier text does not start with an integer literal, such as
`xd6`, `2dx`, `2d6+abc` or `2d6+`, is rejected. -/
theorem grammar_of_accepted_token :
    (∀ (token : Str) (g0 g : DieGroup), parse_token token g0 = (true, g) →
      ∃ (cs : Str) (sep : Char) (ss ms : Str),
        trim token = cs ++ sep :: (ss ++ ms) ∧ (sep = 'd' ∨ sep = 'D') ∧
        (∀ c ∈ cs, c ≠ 'd' ∧ c ≠ 'D') ∧ (∀ c ∈ ss, c ≠ '+' ∧ c ≠ '-') ∧
        (cs = [] ∧ g.count = 1 ∨ starts_with_int cs g.count ∧ 0 ≤ g.count) ∧
        starts_with_int ss g.sides ∧ 0 < g.sides ∧
        (ms = [] ∧ g.modifier = 0 ∨ sign_then_digits ms g.modifier)) ∧
    (∀ g0 : DieGroup,
      parse_token "2xd6".toList g0 = (true, { count := 2, sides := 6, modifier := 0 }) ∧
      parse_token "2d6x".toList g0 = (true, { count := 2, sides := 6, modifier := 0 }) ∧
      parse_token "2d6+2abc".toList g0 = (true, { count := 2, sides := 6, modifier := 2 })) ∧
    (∀ g0 : DieGroup,
      (parse_token "xd6".toList g0).1 = false ∧ (parse_token "2dx".toList g0).1 = false ∧
      (parse_token "2d6+abc".toList g0).1 = false ∧ (parse_token "2d6+".toList g0).1 = false) := by
  refine ⟨?_, ?_, ?_⟩
  · intro token g0 g h
    obtain ⟨cs, sep, ss, ms, htrim, hsep, hcs, hss, hms, hc, hne, hst, hpos, hm⟩ :=
      parse_token_true_inv h
    refine ⟨cs, sep, ss, ms, htrim, by simpa using hsep, ?_, ?_, ?_,
      stoi_starts_with_int hst, hpos, ?_⟩
    · intro c hc'
      have := hcs c hc'
      simpa [not_or] using this
    · intro c hc'
      have := hss c hc'
      simpa [not_or] using this
    · rcases hc with ⟨h1, h2⟩ | ⟨-, h1, h2⟩
      · exact Or.inl ⟨h1, h2⟩
      · exact Or.inr ⟨stoi_starts_with_int h1, h2⟩
    · rcases hm with ⟨h1, h2⟩ | ⟨h1, h2⟩
      · exact Or.inl ⟨h1, h2⟩
      · rcases hms with e | ⟨c, r, e, hc'⟩
        · exact absurd e h1
        · subst e
          exact Or.inr (stoi_sign_then_digits hc' h2)
  · intro g0
    have h1 : parse_token "2xd6".toList DieGroup.default
        = (true, { count := 2, sides := 6, modifier := 0 }) := by decide
    have h2 : parse_token "2d6x".toList DieGroup.default
        = (true, { count := 2, sides := 6, modifier := 0 }) := by decide
    have h3 : parse_token "2d6+2abc".toList DieGroup.default
        = (true, { count := 2, sides := 6, modifier := 2 }) := by decide
    exact ⟨parse_token_true_any g0 h1, parse_token_true_any g0 h2, parse_token_true_any g0 h3⟩
  · intro g0
    refine ⟨?_, ?_, ?_, ?_⟩
    · rw [(parse_token_output_irrelevant _ g0 DieGroup.default).1]; decide
    · rw [(parse_token_output_irrelevant _ g0 DieGroup.default).1]; decide
    · rw [(parse_token_output_irrelevant _ g0 DieGroup.default).1]; decide
    · rw [(parse_token_output_irrelevant _ g0 DieGroup.default).1]; decide

/-- C7, amended, at the token ` +3xD 20y-4z `: its parts are the count text
`+3x`, the separator `D`, the sides text ` 20y` and the modifier text
`-4z`. -/
theorem grammar_of_accepted_token_witness :
    parse_token " +3xD 20y-4z ".toList DieGroup.default
        = (true, { count := 3, sides := 20, modifier := -4 }) ∧
      ∃ (cs : Str) (sep : Char) (ss ms : Str),
        trim " +3xD 20y-4z ".toList = cs ++ sep :: (ss ++ ms) ∧ (sep = 'd' ∨ sep = 'D') ∧
        (∀ c ∈ cs, c ≠ 'd' ∧ c ≠ 'D') ∧ (∀ c ∈ ss, c ≠ '+' ∧ c ≠ '-') ∧
        (cs = [] ∧ (3 : Int) = 1 ∨ starts_with_int cs 3 ∧ (0 : Int) ≤ 3) ∧
        starts_with_int ss 20 ∧ (0 : Int) < 20 ∧
        (ms = [] ∧ (-4 : Int) = 0 ∨ sign_then_digits ms (-4)) :=
  ⟨by decide,
    grammar_of_accepted_token.1 " +3xD 20y-4z ".toList DieGroup.default
      { count := 3, sides := 20, modifier := -4 } (by decide)⟩

/-! ## Failure of the parser -/

/-- C8: every text that contains neither `d` nor `D` is rejected by
`parse_specification`: the empty text, texts of commas and white space only
such as `,,,`, and texts such as `abc` whose term has no dice separator. -/
theorem no_separator_fails :
    (∀ (text : Str) (prior : List DieGroup), (∀ c ∈ text, c ≠ 'd' ∧ c ≠ 'D') →
      (parse_specification text prior).1 = false) ∧
    (∀ prior : List DieGroup, (parse_specification "".toList prior).1 = false) ∧
    (∀ prior : List DieGroup, (parse_specification ",,,".toList prior).1 = false) ∧
    (∀ prior : List DieGroup, (parse_specification " ,\t, ".toList prior).1 = false) ∧
    (∀ prior : List DieGroup, (parse_specification "abc".toList prior).1 = false) := by
  refine ⟨?_, fun prior => by rw [parse_specification_prior]; decide,
    fun prior => by rw [parse_specification_prior]; decide,
    fun prior => by rw [parse_specification_prior]; decide,
    fun prior => by rw [parse_specification_prior]; decide⟩
  intro text prior h
  rw [parse_specification_eq, process_segments_no_separator]
  intro seg hseg c hc hmem
  have hct := h c (segments_subset text seg hseg c hc)
  simp only [List.mem_cons, List.mem_singleton, List.not_mem_nil, or_false] at hmem
  rcases hmem with e | e
  · exact hct.1 e
  · exact hct.2 e

/-- C8 at the text `2x6+1, 3*10`. -/
theorem no_separator_fails_witness :
    (∀ c ∈ "2x6+1, 3*10".toList, c ≠ 'd' ∧ c ≠ 'D') ∧
      (parse_specification "2x6+1, 3*10".toList []).1 = false :=
  ⟨by decide, no_separator_fails.1 "2x6+1, 3*10".toList [] (by decide)⟩

/-- C9: fail-fast propagation. If one of the comma-separated segments of a
text is not blank and is rejected by `parse_token`, then
`parse_specification` fails on the whole text, whatever the other segments
are and whatever the output parameters held. -/
theorem rejected_segment_fails (text seg : Str) (prior : List DieGroup) (g0 : DieGroup)
    (hseg : seg ∈ segments text) (hblank : trim seg ≠ [])
    (hrej : (parse_token seg g0).1 = false) :
    (parse_specification text prior).1 = false := by
  have hr : (parse_token seg DieGroup.default).1 = false := by
    rw [← (parse_token_output_irrelevant seg g0 DieGroup.default).1]; exact hrej
  rw [parse_specification_eq]
  exact process_segments_rejected hblank hr _ _ hseg

/-- C9 at the text `1d6, 2d0 ,3d8`, whose second segment has zero sides. -/
theorem rejected_segment_fails_witness :
    " 2d0 ".toList ∈ segments "1d6, 2d0 ,3d8".toList ∧
      trim " 2d0 ".toList ≠ [] ∧
      (parse_token " 2d0 ".toList DieGroup.default).1 = false ∧
      (parse_specification "1d6, 2d0 ,3d8".toList []).1 = false :=
  ⟨by decide, by decide, by decide,
    rejected_segment_fails "1d6, 2d0 ,3d8".toList " 2d0 ".toList [] DieGroup.default
      (by decide) (by decide) (by decide)⟩

/-- C10, as stated, fails. On `1d6,abc` `parse_specification` returns
`false` and leaves in the output vector the group `1d6` parsed from the first
segment: the vector is not empty. -/
theorem partial_results_counterexample :
    parse_specification "1d6,abc".toList []
        = (false, [{ count := 1, sides := 6, modifier := 0 }]) ∧
      (parse_specification "1d6,abc".toList []).2 ≠ [] := by
  decide

/-- C10, amended. Whenever `parse_specification` returns `false`, the
prior content of the output vector is gone, and the vector holds exactly the
groups of the segments accepted before the first rejected one: either every
segment is blank and the vector is empty, or some non-blank segment is
rejected, every segment before it is blank or accepted, and the vector holds
the groups parsed from those accepted segments, in order (none when the
rejected segment is the first non-blank one). After `1d6,abc` the vector
holds the group `1d6`; after `abc,1d6` and after `,,,` it is empty. -/
theorem failure_leaves_accepted_groups :
    (∀ (text : Str) (prior G : List DieGroup), parse_specification text prior = (false, G) →
      (G = [] ∧ ∀ seg ∈ segments text, trim seg = []) ∨
      ∃ pre seg post, segments text = pre ++ seg :: post ∧
        (∀ p ∈ pre, trim p = [] ∨ (parse_token p DieGroup.default).1 = true) ∧
        trim seg ≠ [] ∧ (parse_token seg DieGroup.default).1 = false ∧
        G = accepted_groups pre) ∧
    (∀ prior : List DieGroup,
      parse_specification "1d6,abc".toList prior
        = (false, [{ count := 1, sides := 6, modifier := 0 }])) ∧
    (∀ prior : List DieGroup, parse_specification "abc,1d6".toList prior = (false, [])) ∧
    (∀ prior : List DieGroup, parse_specification ",,,".toList prior = (false, [])) := by
  refine ⟨?_, fun prior => by rw [parse_specification_prior]; decide,
    fun prior => by rw [parse_specification_prior]; decide,
    fun prior => by rw [parse_specification_prior]; decide⟩
  intro text prior G h
  rw [parse_specification_eq] at h
  rcases process_segments_false _ _ _ h with ⟨-, h2, h3⟩ | ⟨pre, seg, post, e, hpre, hb, hr, hG⟩
  · exact Or.inl ⟨h2, h3⟩
  · exact Or.inr ⟨pre, seg, post, e, hpre, hb, hr, by simpa using hG⟩

/-- C10, amended, at the text `2d4, ,d8-1,5d,7d2` with a vector that held a
group: the fourth segment is rejected and the vector is left with `2d4` and
`1d8-1`. -/
theorem failure_leaves_accepted_groups_witness :
    parse_specification "2d4, ,d8-1,5d,7d2".toList [{ count := 9, sides := 9, modifier := 9 }]
        = (false, [{ count := 2, sides := 4, modifier := 0 },
                   { count := 1, sides := 8, modifier := -1 }]) ∧
      ((([{ count := 2, sides := 4, modifier := 0 },
          { count := 1, sides := 8, modifier := -1 }] : List DieGroup) = [] ∧
        ∀ seg ∈ segments "2d4, ,d8-1,5d,7d2".toList, trim seg = []) ∨
       ∃ pre seg post, segments "2d4, ,d8-1,5d,7d2".toList = pre ++ seg :: post ∧
        (∀ p ∈ pre, trim p = [] ∨ (parse_token p DieGroup.default).1 = true) ∧
        trim seg ≠ [] ∧ (parse_token seg DieGroup.default).1 = false ∧
        [{ count := 2, sides := 4, modifier := 0 },
          { count := 1, sides := 8, modifier := -1 }] = accepted_groups pre) :=
  ⟨by decide,
    failure_leaves_accepted_groups.1 "2d4, ,d8-1,5d,7d2".toList
      [{ count := 9, sides := 9, modifier := 9 }] _ (by decide)⟩

/-! ## Blank terms and canonical text -/

theorem trim_chars_of_spelled {w : Str}
    (hw : ∀ c ∈ w, c = ' ' ∨ c = '\t' ∨ c = '\n' ∨ c = '\r') : ∀ c ∈ w, c ∈ trim_chars := by
  intro c hc
  have := hw c hc
  simpa [trim_chars] using this

/-- C11: blank terms are ignored. For all texts `a` and `b` and every text
`w` made only of space, tab, newline and carriage return (possibly empty),
`parse_specification` returns the same verdict and leaves the same groups on
`a ++ "," ++ w ++ "," ++ b` as on `a ++ "," ++ b`, on `w ++ "," ++ b` as on
`b`, and on `a ++ "," ++ w` as on `a`. -/
theorem blank_terms_ignored (a b w : Str) (prior : List DieGroup)
    (hw : ∀ c ∈ w, c = ' ' ∨ c = '\t' ∨ c = '\n' ∨ c = '\r') :
    parse_specification (a ++ ",".toList ++ w ++ ",".toList ++ b) prior
        = parse_specification (a ++ ",".toList ++ b) prior ∧
      parse_specification (w ++ ",".toList ++ b) prior = parse_specification b prior ∧
      parse_specification (a ++ ",".toList ++ w) prior = parse_specification a prior := by
  have hw' := trim_chars_of_spelled hw
  have hblank : trim w = [] := trim_eq_nil hw'
  have hnc : ',' ∉ w := by
    intro hm
    have := hw' _ hm
    exact absurd this (by decide)
  have e1 : a ++ ",".toList ++ w ++ ",".toList ++ b = a ++ ',' :: (w ++ ',' :: b) := by simp
  have e2 : a ++ ",".toList ++ b = a ++ ',' :: b := by simp
  have e3 : w ++ ",".toList ++ b = w ++ ',' :: b := by simp
  have e4 : a ++ ",".toList ++ w = a ++ ',' :: w := by simp
  refine ⟨?_, ?_, ?_⟩
  · rw [e1, e2, parse_specification_eq, parse_specification_eq, segments_append,
      segments_append_comma _ hnc, segments_append, process_segments_blank hblank]
  · rw [e3, parse_specification_eq, parse_specification_eq, segments_append_comma _ hnc]
    exact process_segments_blank hblank _ [] []
  · rw [e4, parse_specification_eq, parse_specification_eq, segments_append,
      segments_no_comma hnc, process_segments_blank hblank, List.append_nil]

/-- C11 at the texts `2d6` and `d4-1,x` with the blank term ` \t`: with a
rejected last term the verdict is `false` and the groups left are the same
too. -/
theorem blank_terms_ignored_witness :
    (∀ c ∈ " \t".toList, c = ' ' ∨ c = '\t' ∨ c = '\n' ∨ c = '\r') ∧
      parse_specification ("2d6".toList ++ ",".toList ++ "d4-1,x".toList) []
        = (false, [{ count := 2, sides := 6, modifier := 0 },
                   { count := 1, sides := 4, modifier := -1 }]) ∧
      (parse_specification
          ("2d6".toList ++ ",".toList ++ " \t".toList ++ ",".toList ++ "d4-1,x".toList) []
        = parse_specification ("2d6".toList ++ ",".toList ++ "d4-1,x".toList) [] ∧
      parse_specification (" \t".toList ++ ",".toList ++ "d4-1,x".toList) []
        = parse_specification "d4-1,x".toList [] ∧
      parse_specification ("2d6".toList ++ ",".toList ++ " \t".toList) []
        = parse_specification "2d6".toList []) :=
  ⟨by decide, by decide,
    blank_terms_ignored "2d6".toList "d4-1,x".toList " \t".toList [] (by decide)⟩

/-- C12: `groups_to_string` equals the canonical rendering. For every group
sequence its output is the `','`-joined concatenation (no trailing comma, the
empty text for the empty sequence) of, for each group in order,
`decimal(count) ++ "d" ++ decimal(sides)` followed by
`"+" ++ decimal(modifier)` when the modifier is positive, by
`decimal(modifier)` with its leading `-` when it is negative, and by nothing
when it is zero. -/
theorem groups_to_string_canonical (groups : List DieGroup) :
    groups_to_string groups = canonical_text groups ∧
      groups_to_string [] = "".toList ∧
      groups_to_string [{ count := 2, sides := 6, modifier := 2 },
          { count := 3, sides := 10, modifier := 0 }, { count := 8, sides := 10, modifier := -6 }]
        = "2d6+2,3d10,8d10-6".toList := by
  refine ⟨?_, by decide, by decide⟩
  rw [groups_to_string_eq, render_groups_eq_canonical_text]

/-! ## The simulation -/

/-- C13: the occurrence counts sum to the number of trials. For every group
sequence, every source of draws, every seeding of the trials and every trial
count `N ≥ 0`, the counts stored in the map `simulate_dice_rolls` returns sum
exactly to `N`. -/
theorem simulation_counts_sum {σ : Type} (draw : σ → Int → Int × σ) (groups : List DieGroup)
    (N : Int) (seeds : Nat → σ) (hN : 0 ≤ N) :
    ((simulate_dice_rolls draw groups N seeds).map Prod.snd).sum = N := by
  unfold simulate_dice_rolls
  rw [simulate_dice_rolls_loop_sum]
  simp only [List.map_nil, List.sum_nil, zero_add]
  exact Int.toNat_of_nonneg hN

/-- C13 at seven trials of `2d6+1` on the replaying source: the outcomes are
3, 5, 7, 6, 8, 10, 3 and the counts 2, 1, 1, 1, 1, 1 sum to 7. -/
theorem simulation_counts_sum_witness :
    simulate_dice_rolls draw_list [{ count := 2, sides := 6, modifier := 1 }] 7 sample_seeds
        = [(3, 2), (5, 1), (7, 1), (6, 1), (8, 1), (10, 1)] ∧
      ((simulate_dice_rolls draw_list [{ count := 2, sides := 6, modifier := 1 }] 7
          sample_seeds).map Prod.snd).sum = 7 :=
  ⟨by decide,
    simulation_counts_sum draw_list [{ count := 2, sides := 6, modifier := 1 }] 7 sample_seeds
      (by decide)⟩

/-- C14: the key domain of the distribution is exactly the observed
outcomes. For every group sequence, every trial count `N` and every run of
the trials, a value `v` is a key of the map `simulate_dice_rolls` returns if
and only if at least one of the `N` trials produced `v`, the count stored for
it is the number of trials that produced it, so every stored count is at
least 1, every key is stored once, and zero trials (or a negative `N`) give
the empty map. -/
theorem distribution_keys_are_outcomes {σ : Type} (draw : σ → Int → Int × σ)
    (groups : List DieGroup) (N : Int) (seeds : Nat → σ) :
    (∀ v : Int, (∃ c, (v, c) ∈ simulate_dice_rolls draw groups N seeds) ↔
      ∃ i, i < N.toNat ∧ (roll_dice draw groups (seeds i)).1 = v) ∧
    (∀ v c : Int, (v, c) ∈ simulate_dice_rolls draw groups N seeds →
      c = (((trial_outcomes draw groups seeds N.toNat 0).count v : Nat) : Int) ∧ 1 ≤ c) ∧
    (∀ v : Int, count_map_find (simulate_dice_rolls draw groups N seeds) v = none ↔
      ¬ ∃ i, i < N.toNat ∧ (roll_dice draw groups (seeds i)).1 = v) ∧
    ((simulate_dice_rolls draw groups N seeds).map Prod.fst).Nodup ∧
    (N ≤ 0 → simulate_dice_rolls draw groups N seeds = []) := by
  have hnd := simulate_dice_rolls_keys_nodup draw groups N seeds
  have hfind : ∀ v : Int, count_map_find (simulate_dice_rolls draw groups N seeds) v
      = if (trial_outcomes draw groups seeds N.toNat 0).count v = 0 then none
        else some (((trial_outcomes draw groups seeds N.toNat 0).count v : Nat) : Int) := by
    intro v
    unfold simulate_dice_rolls
    rw [simulate_dice_rolls_loop_find]
    simp [count_map_find]
  have hmem : ∀ v : Int, (trial_outcomes draw groups seeds N.toNat 0).count v ≠ 0 ↔
      ∃ i, i < N.toNat ∧ (roll_dice draw groups (seeds i)).1 = v := by
    intro v
    rw [Ne, List.count_eq_zero, not_not, trial_outcomes_mem]
    simp
  refine ⟨?_, ?_, ?_, hnd, ?_⟩
  · intro v
    rw [← hmem v]
    constructor
    · rintro ⟨c, hc⟩
      have := (count_map_mem_iff_find _ hnd v c).1 hc
      rw [hfind v] at this
      intro h0
      rw [if_pos h0] at this
      exact absurd this (by simp)
    · intro h0
      refine ⟨(((trial_outcomes draw groups seeds N.toNat 0).count v : Nat) : Int),
        (count_map_mem_iff_find _ hnd v _).2 ?_⟩
      rw [hfind v, if_neg h0]
  · intro v c hc
    have := (count_map_mem_iff_find _ hnd v c).1 hc
    rw [hfind v] at this
    by_cases h0 : (trial_outcomes draw groups seeds N.toNat 0).count v = 0
    · rw [if_pos h0] at this
      exact absurd this (by simp)
    · rw [if_neg h0] at this
      simp only [Option.some.injEq] at this
      refine ⟨this.symm, ?_⟩
      rw [← this]
      omega
  · intro v
    rw [← hmem v, hfind v]
    by_cases h0 : (trial_outcomes draw groups seeds N.toNat 0).count v = 0
    · simp [h0]
    · simp [h0]
  · intro hN
    have : N.toNat = 0 := by omega
    unfold simulate_dice_rolls
    rw [this]
    rfl

/-- C14 at seven trials of `2d6+1` on the replaying source: the value 3,
the outcome of the trials 0 and 6, is stored with the count 2. -/
theorem distribution_keys_are_outcomes_witness :
    ((3 : Int), (2 : Int)) ∈ simulate_dice_rolls draw_list
        [{ count := 2, sides := 6, modifier := 1 }] 7 sample_seeds ∧
      trial_outcomes draw_list [{ count := 2, sides := 6, modifier := 1 }] sample_seeds 7 0
        = [3, 5, 7, 6, 8, 10, 3] ∧
      ((2 : Int) = (((trial_outcomes draw_list [{ count := 2, sides := 6, modifier := 1 }]
          sample_seeds (7 : Int).toNat 0).count 3 : Nat) : Int) ∧ (1 : Int) ≤ 2) :=
  ⟨by decide, by decide,
    (distribution_keys_are_outcomes draw_list [{ count := 2, sides := 6, modifier := 1 }] 7
      sample_seeds).2.1 3 2 (by decide)⟩

/-! ## Evaluation of a text and of validated groups -/

/-- C15: the text overload of `roll_dice` raises its error if and only if
`parse_specification` fails on the text, with the message
`Invalid dice spec: ` followed by the text; when parsing succeeds with the
groups `G` it returns exactly what `roll_dice(G)` returns from the same
generator state with the same draws. -/
theorem text_overload {σ : Type} (draw : σ → Int → Int × σ) :
    (∀ (specification : Str) (prior : List DieGroup) (s : σ),
      (∃ message, roll_dice_text draw specification s = Except.error message) ↔
        (parse_specification specification prior).1 = false) ∧
    (∀ (specification : Str) (prior : List DieGroup) (s : σ),
      (parse_specification specification prior).1 = false →
      roll_dice_text draw specification s
        = Except.error ("Invalid dice spec: ".toList ++ specification)) ∧
    (∀ (specification : Str) (prior G : List DieGroup) (s : σ),
      parse_specification specification prior = (true, G) →
      roll_dice_text draw specification s = Except.ok (roll_dice draw G s)) := by
  refine ⟨?_, ?_, ?_⟩
  · intro specification prior s
    rw [parse_specification_prior]
    unfold roll_dice_text
    by_cases h : (parse_specification specification []).1 = true
    · simp [h]
    · have h' : (parse_specification specification []).1 = false := by simpa using h
      simp [h']
  · intro specification prior s h
    rw [parse_specification_prior] at h
    simp [roll_dice_text, h]
  · intro specification prior G s h
    rw [parse_specification_prior] at h
    simp [roll_dice_text, h]

/-- C15 at the text `2d6+1` with the draws 3 and 4, and at the rejected text
`2d6+1,x`. -/
theorem text_overload_witness :
    parse_specification "2d6+1".toList []
        = (true, [{ count := 2, sides := 6, modifier := 1 }]) ∧
      roll_dice draw_list [{ count := 2, sides := 6, modifier := 1 }] [3, 4] = (8, []) ∧
      roll_dice_text draw_list "2d6+1".toList [3, 4]
        = Except.ok (roll_dice draw_list [{ count := 2, sides := 6, modifier := 1 }] [3, 4]) ∧
      (parse_specification "2d6+1,x".toList []).1 = false ∧
      roll_dice_text draw_list "2d6+1,x".toList [3, 4]
        = Except.error "Invalid dice spec: 2d6+1,x".toList :=
  ⟨by decide, by decide,
    (text_overload draw_list).2.2 "2d6+1".toList [] _ [3, 4] (by decide), by decide,
    (text_overload draw_list).2.1 "2d6+1,x".toList [] [3, 4] (by decide)⟩

/-- C16: a pre-validated sequence cannot fail evaluation. `roll_dice` is a
total function of the groups, the source of draws and the generator state:
for every group sequence it returns a value of type `int` after finitely many
draws, and every draw it requests is over `[1, sides]` for the `sides ≥ 1` of
one of the groups, validated or not, since a group with `sides ≤ 0` or
`count ≤ 0` is skipped. For a sequence in which every group has `count ≥ 0`
and `sides > 0`, in particular one returned by a successful
`parse_specification`, the number of draws is the sum of the counts. -/
theorem evaluation_cannot_fail {σ : Type} (draw : σ → Int → Int × σ) (s : σ) :
    (∀ groups : List DieGroup,
      is_int (roll_dice draw groups s).1 ∧
      ∀ p ∈ draws_made draw groups s, 1 ≤ p.1 ∧ ∃ g ∈ groups, p.1 = g.sides) ∧
    (∀ groups : List DieGroup, (∀ g ∈ groups, 0 ≤ g.count ∧ 0 < g.sides) →
      is_int (roll_dice draw groups s).1 ∧
      ((draws_made draw groups s).length : Int) = (groups.map (fun g => g.count)).sum ∧
      ∀ p ∈ draws_made draw groups s, 1 ≤ p.1 ∧ ∃ g ∈ groups, p.1 = g.sides) ∧
    (∀ (specification : Str) (prior G : List DieGroup),
      parse_specification specification prior = (true, G) →
      is_int (roll_dice draw G s).1 ∧
      ((draws_made draw G s).length : Int) = (G.map (fun g => g.count)).sum ∧
      ∀ p ∈ draws_made draw G s, 1 ≤ p.1 ∧ ∃ g ∈ G, p.1 = g.sides) := by
  have hint : ∀ groups : List DieGroup, is_int (roll_dice draw groups s).1 := by
    intro groups
    rw [roll_dice_eq_wrap]
    exact int_wrap_range _
  have hdraws : ∀ groups : List DieGroup,
      ∀ p ∈ draws_made draw groups s, 1 ≤ p.1 ∧ ∃ g ∈ groups, p.1 = g.sides := by
    intro groups p hp
    obtain ⟨g, hg, e, h1, -⟩ := (draws_made_spec draw groups s).2 p hp
    exact ⟨by rw [e]; exact h1, g, hg, e⟩
  have hvalid : ∀ groups : List DieGroup, (∀ g ∈ groups, 0 ≤ g.count ∧ 0 < g.sides) →
      is_int (roll_dice draw groups s).1 ∧
      ((draws_made draw groups s).length : Int) = (groups.map (fun g => g.count)).sum ∧
      ∀ p ∈ draws_made draw groups s, 1 ≤ p.1 ∧ ∃ g ∈ groups, p.1 = g.sides := by
    intro groups hv
    refine ⟨hint groups, ?_, hdraws groups⟩
    rw [(draws_made_spec draw groups s).1, rolled_groups_count_sum groups hv]
  refine ⟨fun groups => ⟨hint groups, hdraws groups⟩, hvalid, ?_⟩
  intro specification prior G h
  obtain ⟨-, hv⟩ := parse_specification_true h
  apply hvalid
  intro g hg
  have := hv g hg
  exact ⟨this.1, by have := this.2.1; omega⟩

/-- C16 at the groups parsed from `2d6+1,0d4+1, d20` with the replayed
draws 3, 4, 15: three draws are requested, over the sides 6, 6 and 20. -/
theorem evaluation_cannot_fail_witness :
    parse_specification "2d6+1,0d4+1, d20".toList []
        = (true, [{ count := 2, sides := 6, modifier := 1 },
            { count := 0, sides := 4, modifier := 1 },
            { count := 1, sides := 20, modifier := 0 }]) ∧
      draws_made draw_list [{ count := 2, sides := 6, modifier := 1 },
            { count := 0, sides := 4, modifier := 1 },
            { count := 1, sides := 20, modifier := 0 }] [3, 4, 15]
        = [(6, 3), (6, 4), (20, 15)] ∧
      (is_int (roll_dice draw_list [{ count := 2, sides := 6, modifier := 1 },
            { count := 0, sides := 4, modifier := 1 },
            { count := 1, sides := 20, modifier := 0 }] [3, 4, 15]).1 ∧
        ((draws_made draw_list [{ count := 2, sides := 6, modifier := 1 },
            { count := 0, sides := 4, modifier := 1 },
            { count := 1, sides := 20, modifier := 0 }] [3, 4, 15]).length : Int)
          = ([{ count := 2, sides := 6, modifier := 1 },
            { count := 0, sides := 4, modifier := 1 },
            ({ count := 1, sides := 20, modifier := 0 } : DieGroup)].map
              (fun g => g.count)).sum ∧
        ∀ p ∈ draws_made draw_list [{ count := 2, sides := 6, modifier := 1 },
            { count := 0, sides := 4, modifier := 1 },
            { count := 1, sides := 20, modifier := 0 }] [3, 4, 15],
          1 ≤ p.1 ∧ ∃ g ∈ [{ count := 2, sides := 6, modifier := 1 },
            { count := 0, sides := 4, modifier := 1 },
            ({ count := 1, sides := 20, modifier := 0 } : DieGroup)], p.1 = g.sides) :=
  ⟨by decide, by decide,
    (evaluation_cannot_fail draw_list [3, 4, 15]).2.2 "2d6+1,0d4+1, d20".toList [] _
      (by decide)⟩

/-! ## The separator and the count of a token -/

/-- C17: the dice separator is case-insensitive. For all texts `p` and `r`
where `p` contains neither `d` nor `D`, `parse_token` on `p ++ "D" ++ r` and
on `p ++ "d" ++ r` returns the same verdict and leaves the same group,
whatever `output_group` held. -/
theorem separator_case_insensitive (p r : Str) (g0 : DieGroup)
    (hp : ∀ c ∈ p, c ≠ 'd' ∧ c ≠ 'D') :
    parse_token (p ++ "D".toList ++ r) g0 = parse_token (p ++ "d".toList ++ r) g0 := by
  have hp' : ∀ c ∈ p, c ∉ ['d', 'D'] := by
    intro c hc hm
    have := hp c hc
    simp only [List.mem_cons, List.mem_singleton, List.not_mem_nil, or_false] at hm
    rcases hm with e | e
    · exact this.1 e
    · exact this.2 e
  have e1 : p ++ "D".toList ++ r = p ++ 'D' :: r := by simp
  have e2 : p ++ "d".toList ++ r = p ++ 'd' :: r := by simp
  rw [e1, e2, parse_token_split (by simp) hp', parse_token_split (by simp) hp']

/-- C17 at the texts ` 3` and `8+1 `: ` 3D8+1 ` and ` 3d8+1 ` both parse to
the group `3d8+1`. -/
theorem separator_case_insensitive_witness :
    (∀ c ∈ " 3".toList, c ≠ 'd' ∧ c ≠ 'D') ∧
      parse_token (" 3".toList ++ "d".toList ++ "8+1 ".toList) DieGroup.default
        = (true, { count := 3, sides := 8, modifier := 1 }) ∧
      parse_token (" 3".toList ++ "D".toList ++ "8+1 ".toList) DieGroup.default
        = parse_token (" 3".toList ++ "d".toList ++ "8+1 ".toList) DieGroup.default :=
  ⟨by decide, by decide,
    separator_case_insensitive " 3".toList "8+1 ".toList DieGroup.default (by decide)⟩

/-- C18: an omitted count defaults to 1. For every text `r`, `parse_token`
on `"d" ++ r` and on `"1d" ++ r` returns the same verdict and leaves the same
group, and when it succeeds the group has `count = 1`; `d6` parses to the
group `{count = 1, sides = 6, modifier = 0}`. -/
theorem omitted_count_is_one :
    (∀ (r : Str) (g0 : DieGroup),
      parse_token ("d".toList ++ r) g0 = parse_token ("1d".toList ++ r) g0) ∧
    (∀ (r : Str) (g0 : DieGroup), (parse_token ("d".toList ++ r) g0).1 = true →
      (parse_token ("d".toList ++ r) g0).2.count = 1 ∧
      (parse_token ("1d".toList ++ r) g0).2.count = 1) ∧
    (∀ g0 : DieGroup,
      parse_token "d6".toList g0 = (true, { count := 1, sides := 6, modifier := 0 })) := by
  have hone : stoi ['1'] = some 1 := by decide
  have hc0 : ∀ g0 : DieGroup, parse_count g0 (trim_left []) = (true, { g0 with count := 1 }) :=
    fun g0 => rfl
  have hc1 : ∀ g0 : DieGroup,
      parse_count g0 (trim_left ['1']) = (true, { g0 with count := 1 }) := by
    intro g0
    have ht : trim_left ['1'] = ['1'] := by decide
    rw [ht]
    simp [parse_count, hone]
  have heq : ∀ (r : Str) (g0 : DieGroup),
      parse_token ("d".toList ++ r) g0 = parse_token ("1d".toList ++ r) g0 := by
    intro r g0
    have e1 : "d".toList ++ r = [] ++ 'd' :: r := rfl
    have e2 : "1d".toList ++ r = ['1'] ++ 'd' :: r := rfl
    rw [e1, e2, parse_token_split (by simp) (by simp), parse_token_split (by simp) (by simp),
      hc0, hc1]
  refine ⟨heq, ?_, ?_⟩
  · intro r g0 h
    have hcount : (parse_token ("d".toList ++ r) g0).2.count = 1 := by
      have e1 : "d".toList ++ r = [] ++ 'd' :: r := rfl
      rw [e1, parse_token_split (by simp) (by simp), hc0] at h ⊢
      simp only [Bool.not_true, Bool.false_eq_true, if_false] at h ⊢
      have hp := parse_sides_modifier_true
        (g := (parse_sides_modifier { g0 with count := 1 }
          (split_modifier (trim_right r)).1 (split_modifier (trim_right r)).2).2)
        (Prod.ext h rfl)
      exact hp.1
    refine ⟨hcount, ?_⟩
    rw [← heq]
    exact hcount
  · intro g0
    have h : parse_token "d6".toList DieGroup.default
        = (true, { count := 1, sides := 6, modifier := 0 }) := by decide
    exact parse_token_true_any g0 h

/-- C18 at the text `20-3`: `d20-3` and `1d20-3` both parse to the group
`1d20-3`. -/
theorem omitted_count_is_one_witness :
    (parse_token ("d".toList ++ "20-3".toList) DieGroup.default).1 = true ∧
      parse_token ("1d".toList ++ "20-3".toList) DieGroup.default
        = (true, { count := 1, sides := 20, modifier := -3 }) ∧
      ((parse_token ("d".toList ++ "20-3".toList) DieGroup.default).2.count = 1 ∧
        (parse_token ("1d".toList ++ "20-3".toList) DieGroup.default).2.count = 1) :=
  ⟨by decide, by decide,
    omitted_count_is_one.2.1 "20-3".toList DieGroup.default (by decide)⟩

/-! ## Order of the terms and white space around a term -/

/-- C19: input order is preserved and parsing distributes over `','`. For
all texts `a` and `b`, if `parse_specification` succeeds on `a` with the
groups `A` and on `b` with the groups `B`, then it succeeds on
`a ++ "," ++ b` with the groups `A ++ B`, whatever the output vectors held
before. -/
theorem parse_distributes_over_comma (a b : Str) (A B prior1 prior2 prior3 : List DieGroup)
    (ha : parse_specification a prior1 = (true, A))
    (hb : parse_specification b prior2 = (true, B)) :
    parse_specification (a ++ ",".toList ++ b) prior3 = (true, A ++ B) := by
  rw [parse_specification_eq] at ha hb
  have e : a ++ ",".toList ++ b = a ++ ',' :: b := by simp
  rw [e, parse_specification_eq, segments_append, process_segments_append _ _ _ _ ha]
  have := process_segments_shift A _ _ _ hb
  simpa using this

/-- C19 at the texts `2d6+2, d4` and `,3D10-1`. -/
theorem parse_distributes_over_comma_witness :
    parse_specification "2d6+2, d4".toList []
        = (true, [{ count := 2, sides := 6, modifier := 2 },
                  { count := 1, sides := 4, modifier := 0 }]) ∧
      parse_specification ",3D10-1".toList []
        = (true, [{ count := 3, sides := 10, modifier := -1 }]) ∧
      parse_specification ("2d6+2, d4".toList ++ ",".toList ++ ",3D10-1".toList) []
        = (true, [{ count := 2, sides := 6, modifier := 2 },
                  { count := 1, sides := 4, modifier := 0 }]
                  ++ [{ count := 3, sides := 10, modifier := -1 }]) :=
  ⟨by decide, by decide,
    parse_distributes_over_comma "2d6+2, d4".toList ",3D10-1".toList _ _ [] [] []
      (by decide) (by decide)⟩

/-- C20: white space around a term is ignored. For every token `t` and all
texts `w1`, `w2` made only of space, tab, newline and carriage return,
`parse_token` on `w1 ++ t ++ w2` and on `t` returns the same verdict and
leaves the same group, because `trim` returns the same text for both; and
`trim` removes exactly the leading and the trailing run of those four
characters: `t` is a run of them, then `trim t`, then a run of them, and
`trim t` neither starts nor ends with one of them. -/
theorem whitespace_around_token (t w1 w2 : Str) (g0 : DieGroup)
    (h1 : ∀ c ∈ w1, c = ' ' ∨ c = '\t' ∨ c = '\n' ∨ c = '\r')
    (h2 : ∀ c ∈ w2, c = ' ' ∨ c = '\t' ∨ c = '\n' ∨ c = '\r') :
    parse_token (w1 ++ t ++ w2) g0 = parse_token t g0 ∧
      trim (w1 ++ t ++ w2) = trim t ∧
      ∃ a b : Str, t = a ++ trim t ++ b ∧
        (∀ c ∈ a, c = ' ' ∨ c = '\t' ∨ c = '\n' ∨ c = '\r') ∧
        (∀ c ∈ b, c = ' ' ∨ c = '\t' ∨ c = '\n' ∨ c = '\r') ∧
        (∀ c r, trim t = c :: r → ¬ (c = ' ' ∨ c = '\t' ∨ c = '\n' ∨ c = '\r')) ∧
        (∀ c r, trim t = r ++ [c] → ¬ (c = ' ' ∨ c = '\t' ∨ c = '\n' ∨ c = '\r')) := by
  have ht := trim_pad w1 t w2 (trim_chars_of_spelled h1) (trim_chars_of_spelled h2)
  refine ⟨parse_token_congr ht g0, ht, ?_⟩
  obtain ⟨a, b, hab, ha, hb, hhead, hlast⟩ := trim_spec t
  refine ⟨a, b, hab, ?_, ?_, ?_, ?_⟩
  · intro c hc
    simpa [trim_chars] using ha c hc
  · intro c hc
    simpa [trim_chars] using hb c hc
  · intro c r h hm
    exact hhead c r h (by simpa [trim_chars] using hm)
  · intro c r h hm
    exact hlast c r h (by simpa [trim_chars] using hm)

/-- C20 at the token `2d6 +1` between `\t ` and ` \r\n`: both are trimmed to
`2d6 +1`, whose inner space stays, and both parse to the group `2d6+1`. -/
theorem whitespace_around_token_witness :
    (∀ c ∈ "\t ".toList, c = ' ' ∨ c = '\t' ∨ c = '\n' ∨ c = '\r') ∧
      (∀ c ∈ " \r\n".toList, c = ' ' ∨ c = '\t' ∨ c = '\n' ∨ c = '\r') ∧
      trim ("\t ".toList ++ "2d6 +1".toList ++ " \r\n".toList) = "2d6 +1".toList ∧
      parse_token "2d6 +1".toList DieGroup.default
        = (true, { count := 2, sides := 6, modifier := 1 }) ∧
      parse_token ("\t ".toList ++ "2d6 +1".toList ++ " \r\n".toList) DieGroup.default
        = parse_token "2d6 +1".toList DieGroup.default :=
  ⟨by decide, by decide, by decide, by decide,
    (whitespace_around_token "2d6 +1".toList "\t ".toList " \r\n".toList DieGroup.default
      (by decide) (by decide)).1⟩

end LaboratoryWork4
